import Mathlib

/-!
Shallow embedding of the WOFF/WOFF2 low-level codec layer of
`Lib/fontTools/ttLib/sfnt.py`, together with proofs of the specified
properties: the UIntBase128 and 255UInt16 integer codecs, the WOFF2
triplet coordinate coder, the short-format `loca` encoder, the WOFF and
WOFF2 directory entries, and the SFNT writer checkSumAdjustment protocol.

Machine integers are modelled as `Nat`/`Int` with explicit `% 2^32`
where the Python code masks with `0xffffffff`; byte strings are
`List Nat` with every element below 256; fallible code returns `Except`.
-/

namespace FontToolsSfnt

/-! ## Bit-arithmetic helper lemmas

The Python source works with `&`, `|`, `<<`, `>>` on nonnegative
integers.  The following lemmas rewrite every concrete mask and shift
that occurs in the source into `/ %` arithmetic so that `omega` can
finish the goals. -/

theorem and_shifted_mask (n i j : Nat) :
    n &&& ((2 ^ j - 1) <<< i) = n / 2 ^ i % 2 ^ j * 2 ^ i := by
  have h : n &&& ((2 ^ j - 1) <<< i) = ((n >>> i) &&& (2 ^ j - 1)) <<< i := by
    apply Nat.eq_of_testBit_eq
    intro k
    simp only [Nat.testBit_and, Nat.testBit_shiftLeft, Nat.testBit_shiftRight,
      Nat.testBit_two_pow_sub_one]
    rcases Nat.lt_or_ge k i with hk | hk
    · simp [Nat.not_le.mpr hk]
    · simp [hk, Nat.add_sub_cancel' hk, Bool.and_comm, Bool.and_left_comm]
  rw [h, Nat.and_pow_two_sub_one_eq_mod, Nat.shiftRight_eq_div_pow, Nat.shiftLeft_eq]

theorem and_1 (n : Nat) : n &&& 1 = n % 2 :=
  Nat.and_one_is_mod n

theorem and_0xf (n : Nat) : n &&& 0xf = n % 16 := by
  have := Nat.and_pow_two_sub_one_eq_mod n 4
  norm_num at this ⊢
  exact this

theorem and_0x3f (n : Nat) : n &&& 0x3f = n % 64 := by
  have := Nat.and_pow_two_sub_one_eq_mod n 6
  norm_num at this ⊢
  exact this

theorem and_0x7f (n : Nat) : n &&& 0x7f = n % 128 := by
  have := Nat.and_pow_two_sub_one_eq_mod n 7
  norm_num at this ⊢
  exact this

theorem and_0xff (n : Nat) : n &&& 0xff = n % 256 := by
  have := Nat.and_pow_two_sub_one_eq_mod n 8
  norm_num at this ⊢
  exact this

theorem and_14 (n : Nat) : n &&& 14 = n / 2 % 8 * 2 := by
  have := and_shifted_mask n 1 3
  norm_num at this ⊢
  exact this

theorem and_0x0c (n : Nat) : n &&& 0x0c = n / 4 % 4 * 4 := by
  have := and_shifted_mask n 2 2
  norm_num at this ⊢
  exact this

theorem and_0x30 (n : Nat) : n &&& 0x30 = n / 16 % 4 * 16 := by
  have := and_shifted_mask n 4 2
  norm_num at this ⊢
  exact this

theorem and_0x80 (n : Nat) : n &&& 0x80 = n / 128 % 2 * 128 := by
  have := and_shifted_mask n 7 1
  norm_num at this ⊢
  exact this

theorem and_0xc0 (n : Nat) : n &&& 0xc0 = n / 64 % 4 * 64 := by
  have := and_shifted_mask n 6 2
  norm_num at this ⊢
  exact this

theorem and_0xf00 (n : Nat) : n &&& 0xf00 = n / 256 % 16 * 256 := by
  have := and_shifted_mask n 8 4
  norm_num at this ⊢
  exact this

theorem and_0x300 (n : Nat) : n &&& 0x300 = n / 256 % 4 * 256 := by
  have := and_shifted_mask n 8 2
  norm_num at this ⊢
  exact this

theorem and_0xFE000000 (n : Nat) :
    n &&& 0xFE000000 = n / 33554432 % 128 * 33554432 := by
  have := and_shifted_mask n 25 7
  norm_num at this ⊢
  exact this

theorem shl_eq (n k : Nat) : n <<< k = n * 2 ^ k := Nat.shiftLeft_eq n k

theorem shr_eq (n k : Nat) : n >>> k = n / 2 ^ k := Nat.shiftRight_eq_div_pow n k

theorem or_of_lt (a b k : Nat) (h : b < 2 ^ k) : (a <<< k) ||| b = a * 2 ^ k + b := by
  rw [shl_eq, Nat.mul_comm a (2 ^ k), ← Nat.mul_add_lt_is_or h a, Nat.mul_comm]

/-! ## Byte-string helpers -/

/-- Big-endian 2-byte encoding of a 16-bit value
(`array("H")` followed by a byteswap to big endian in the source). -/
def toBE16 (v : Nat) : List Nat := [v / 256 % 256, v % 256]

/-- Big-endian 4-byte encoding of a 32-bit value (`struct.pack(">L", v)`). -/
def toBE32 (v : Nat) : List Nat :=
  [v / 16777216 % 256, v / 65536 % 256, v / 256 % 256, v % 256]

/-! ## UIntBase128 (sfnt.py, `unpackBase128` / `base128Size` / `packBase128`) -/

/-- Embeds `base128Size`: `size = 1; while n >= 128: size += 1; n >>= 7`. -/
def base128Size (n : Nat) : Nat :=
  if n < 128 then 1 else base128Size (n >>> 7) + 1
termination_by n
decreasing_by
  simp only [Nat.shiftRight_eq_div_pow]
  exact Nat.div_lt_self (by omega) (by norm_num)

/-- Embeds the byte-building loop of `packBase128`:
byte `i` is `(n >> (7 * (size - i - 1))) & 0x7f`, with the continuation
bit `0x80` set on every byte but the last. -/
def packBase128Bytes (n : Nat) : List Nat :=
  (List.range (base128Size n)).map fun i =>
    let b := (n >>> (7 * (base128Size n - i - 1))) &&& 0x7f
    if i < base128Size n - 1 then b ||| 0x80 else b

/-- Embeds `packBase128`, which raises unless `0 <= n <= 2**32 - 1`. -/
def packBase128 (n : Nat) : Except String (List Nat) :=
  if n ≥ 2 ^ 32 then
    .error "UIntBase128 format requires 0 <= integer <= 2**32-1"
  else
    .ok (packBase128Bytes n)

/-- Embeds the `for i in range(5)` loop of `unpackBase128` (sfnt.py),
with the loop counter turned into fuel. -/
def unpackBase128Go (result : Nat) (fuel : Nat) (data : List Nat) :
    Except String (Nat × List Nat) :=
  match fuel with
  | 0 => .error "UIntBase128-encoded sequence is longer than 5 bytes"
  | fuel + 1 =>
    match data with
    | [] => .error "not enough data to unpack UIntBase128"
    | code :: rest =>
      if result &&& 0xFE000000 ≠ 0 then
        .error "UIntBase128 value exceeds 2**32-1"
      else
        let result := (result <<< 7) ||| (code &&& 0x7f)
        if code &&& 0x80 = 0 then .ok (result, rest)
        else unpackBase128Go result fuel rest

/-- Embeds `unpackBase128` from sfnt.py: a leading `0x80` byte is
rejected, then the loop above runs for at most five bytes. -/
def unpackBase128 (data : List Nat) : Except String (Nat × List Nat) :=
  match data with
  | [] => .error "assert len(data) > 0"
  | b :: _ =>
    if b = 0x80 then .error "UIntBase128 value must not start with leading zeros"
    else unpackBase128Go 0 5 data

theorem base128Size_of_lt (n : Nat) (h : n < 128) : base128Size n = 1 := by
  rw [base128Size]; simp [h]

theorem base128Size_of_ge (n : Nat) (h : 128 ≤ n) :
    base128Size n = base128Size (n >>> 7) + 1 := by
  rw [base128Size]; simp [Nat.not_lt.mpr h]

theorem base128Size_le (k : Nat) : ∀ n : Nat, n < 128 ^ (k + 1) → base128Size n ≤ k + 1 := by
  induction k with
  | zero =>
    intro n hn
    rw [base128Size_of_lt n (by simpa using hn)]
  | succ k ih =>
    intro n hn
    rcases Nat.lt_or_ge n 128 with h | h
    · rw [base128Size_of_lt n h]; omega
    · rw [base128Size_of_ge n h]
      have := ih (n >>> 7) (by
        rw [shr_eq]
        have : n / 2 ^ 7 < 128 ^ (k + 1) := by
          apply Nat.div_lt_of_lt_mul
          calc n < 128 ^ (k + 1 + 1) := hn
          _ = 2 ^ 7 * 128 ^ (k + 1) := by ring
        simpa using this)
      omega

theorem base128Size_le_five (n : Nat) (h : n < 2 ^ 32) : base128Size n ≤ 5 := by
  have := base128Size_le 4 n (by norm_num; omega)
  omega

/-- Proof-side decomposition of `packBase128Bytes`: the bytes of `m`
with the continuation bit set on every byte, used for the high digits. -/
def packHighBytes (m : Nat) : List Nat :=
  (List.range (base128Size m)).map fun i =>
    ((m >>> (7 * (base128Size m - i - 1))) &&& 0x7f) ||| 0x80

theorem packBase128Bytes_lt (n : Nat) (h : n < 128) : packBase128Bytes n = [n] := by
  unfold packBase128Bytes
  rw [base128Size_of_lt n h]
  simp [and_0x7f, Nat.mod_eq_of_lt h]

theorem packHighBytes_ge (m : Nat) (h : 128 ≤ m) :
    packHighBytes m = packHighBytes (m >>> 7) ++ [(m &&& 0x7f) ||| 0x80] := by
  unfold packHighBytes
  rw [base128Size_of_ge m h, List.range_succ, List.map_append]
  congr 1
  · apply List.map_congr_left
    intro i hi
    simp only [List.mem_range] at hi
    have harith : 7 * (base128Size (m >>> 7) + 1 - i - 1) =
        7 + 7 * (base128Size (m >>> 7) - i - 1) := by omega
    rw [harith, Nat.shiftRight_add]
  · simp

theorem packBase128Bytes_ge (n : Nat) (h : 128 ≤ n) :
    packBase128Bytes n = packHighBytes (n >>> 7) ++ [n &&& 0x7f] := by
  unfold packBase128Bytes packHighBytes
  rw [base128Size_of_ge n h, List.range_succ, List.map_append]
  congr 1
  · apply List.map_congr_left
    intro i hi
    simp only [List.mem_range] at hi
    have hlt : i < base128Size (n >>> 7) + 1 - 1 := by omega
    rw [if_pos hlt]
    have harith : 7 * (base128Size (n >>> 7) + 1 - i - 1) =
        7 + 7 * (base128Size (n >>> 7) - i - 1) := by omega
    rw [harith, Nat.shiftRight_add]
  · simp

theorem base128_upper (m : Nat) : m < 128 ^ base128Size m := by
  induction m using Nat.strong_induction_on with
  | _ m ih =>
    rcases Nat.lt_or_ge m 128 with h | h
    · rw [base128Size_of_lt m h]; simpa using h
    · rw [base128Size_of_ge m h]
      have hm : m >>> 7 < m := by
        rw [shr_eq]; exact Nat.div_lt_self (by omega) (by norm_num)
      have h2 : m / 2 ^ 7 < 128 ^ base128Size (m >>> 7) := by
        calc m / 2 ^ 7 = m >>> 7 := (shr_eq m 7).symm
        _ < 128 ^ base128Size (m >>> 7) := ih (m >>> 7) hm
      have h3 : m < 128 ^ base128Size (m >>> 7) * 2 ^ 7 :=
        (Nat.div_lt_iff_lt_mul (by norm_num)).mp h2
      calc m < 128 ^ base128Size (m >>> 7) * 2 ^ 7 := h3
      _ = 128 ^ (base128Size (m >>> 7) + 1) := by ring

theorem base128_lower (m : Nat) (hm : 1 ≤ m) : 128 ^ (base128Size m - 1) ≤ m := by
  induction m using Nat.strong_induction_on with
  | _ m ih =>
    rcases Nat.lt_or_ge m 128 with h | h
    · rw [base128Size_of_lt m h]; simpa using hm
    · rw [base128Size_of_ge m h]
      have hm7 : m >>> 7 < m := by
        rw [shr_eq]; exact Nat.div_lt_self (by omega) (by norm_num)
      have h1 : 1 ≤ m >>> 7 := by
        rw [shr_eq]; exact Nat.one_le_div_iff (by norm_num) |>.mpr (by norm_num at h ⊢; omega)
      have := ih (m >>> 7) hm7 h1
      have hs : 1 ≤ base128Size (m >>> 7) := by
        rw [base128Size]; split <;> omega
      have h2 : 128 ^ (base128Size (m >>> 7) - 1) * 128 ≤ (m >>> 7) * 128 :=
        Nat.mul_le_mul_right 128 this
      have h3 : (m >>> 7) * 128 ≤ m := by
        rw [shr_eq]
        have := Nat.div_mul_le_self m (2 ^ 7)
        norm_num at this ⊢; omega
    /- combine: 128 ^ ((s+1) - 1) = 128 ^ (s-1) * 128 since s ≥ 1 -/
      calc 128 ^ (base128Size (m >>> 7) + 1 - 1)
          = 128 ^ (base128Size (m >>> 7) - 1) * 128 := by
            rw [← Nat.pow_succ]; congr 1; omega
      _ ≤ (m >>> 7) * 128 := h2
      _ ≤ m := h3

theorem or_0x80 (b : Nat) (h : b < 128) : b ||| 0x80 = b + 128 := by
  rw [Nat.or_comm]
  have h2 := or_of_lt 1 b 7 (by omega)
  rw [show (1 : Nat) <<< 7 = 128 from rfl] at h2
  rw [h2]
  omega

theorem unpackBase128Go_packHigh (m : Nat) :
    ∀ (r fuel : Nat) (rest : List Nat),
      r * 128 ^ base128Size m + m < 2 ^ 32 →
      base128Size m ≤ fuel →
      unpackBase128Go r fuel (packHighBytes m ++ rest) =
        unpackBase128Go (r * 128 ^ base128Size m + m) (fuel - base128Size m) rest := by
  induction m using Nat.strong_induction_on with
  | _ m ih =>
    intro r fuel rest hbound hfuel
    rcases Nat.lt_or_ge m 128 with h | h
    · have hsz : base128Size m = 1 := base128Size_of_lt m h
      have hbyte : packHighBytes m = [m + 128] := by
        unfold packHighBytes
        rw [hsz]
        have hr1 : List.range 1 = [0] := rfl
        simp only [hr1, List.map_cons, List.map_nil]
        rw [show (7 * (1 - 0 - 1)) = 0 from rfl]
        rw [Nat.shiftRight_zero, and_0x7f, Nat.mod_eq_of_lt h, or_0x80 m h]
      rw [hsz] at hbound hfuel ⊢
      obtain ⟨f, rfl⟩ : ∃ f, fuel = f + 1 := ⟨fuel - 1, by omega⟩
      rw [hbyte]
      show unpackBase128Go r (f + 1) ((m + 128) :: rest) = _
      rw [unpackBase128Go]
      have hr : r < 2 ^ 25 := by
        have : r * 128 ≤ r * 128 ^ 1 := by norm_num
        omega
      rw [and_0xFE000000]
      rw [if_neg (by push_neg; omega)]
      have hand : (m + 128) &&& 0x7f = m := by
        rw [and_0x7f]; omega
      have hres : (r <<< 7) ||| ((m + 128) &&& 0x7f) = r * 128 + m := by
        rw [hand, or_of_lt r m 7 (by omega)]; norm_num
      have hcont : (m + 128) &&& 0x80 = 128 := by
        rw [and_0x80]; omega
      simp only [hres, hcont]
      rw [if_neg (by omega)]
      norm_num
    · have hm7 : m >>> 7 < m := by
        rw [shr_eq]; exact Nat.div_lt_self (by omega) (by norm_num)
      have hsz : base128Size m = base128Size (m >>> 7) + 1 := base128Size_of_ge m h
      have hsplit : m = (m >>> 7) * 128 + m % 128 := by
        rw [shr_eq]; norm_num; omega
      rw [packHighBytes_ge m h, List.append_assoc]
      have hb1 : r * 128 ^ base128Size (m >>> 7) + m >>> 7 < 2 ^ 32 := by
        have h128 : (r * 128 ^ base128Size (m >>> 7) + m >>> 7) * 128 ≤
            r * 128 ^ base128Size m + m := by
          rw [hsz, pow_succ]
          have : (m >>> 7) * 128 ≤ m := by omega
          calc (r * 128 ^ base128Size (m >>> 7) + m >>> 7) * 128
              = r * (128 ^ base128Size (m >>> 7) * 128) + (m >>> 7) * 128 := by ring
          _ ≤ r * (128 ^ base128Size (m >>> 7) * 128) + m := by omega
        omega
      rw [ih (m >>> 7) hm7 r fuel _ hb1 (by omega)]
      set R := r * 128 ^ base128Size (m >>> 7) + m >>> 7 with hR
      have hRlt : R < 2 ^ 25 := by
        have : R * 128 ≤ r * 128 ^ base128Size m + m := by
          rw [hsz, pow_succ, hR]
          have : (m >>> 7) * 128 ≤ m := by omega
          calc (r * 128 ^ base128Size (m >>> 7) + m >>> 7) * 128
              = r * (128 ^ base128Size (m >>> 7) * 128) + (m >>> 7) * 128 := by ring
          _ ≤ r * (128 ^ base128Size (m >>> 7) * 128) + m := by omega
        omega
      obtain ⟨f, hf⟩ : ∃ f, fuel - base128Size (m >>> 7) = f + 1 := by
        refine ⟨fuel - base128Size m, ?_⟩
        omega
      rw [hf]
      show unpackBase128Go R (f + 1) (((m &&& 0x7f) ||| 0x80) :: rest) = _
      rw [unpackBase128Go]
      rw [and_0xFE000000]
      rw [if_neg (by push_neg; omega)]
      have hcode : (m &&& 0x7f) ||| 0x80 = m % 128 + 128 := by
        rw [and_0x7f, or_0x80 (m % 128) (by omega)]
      rw [hcode]
      have hand : (m % 128 + 128) &&& 0x7f = m % 128 := by
        rw [and_0x7f]; omega
      have hres : (R <<< 7) ||| ((m % 128 + 128) &&& 0x7f) = R * 128 + m % 128 := by
        rw [hand, or_of_lt R (m % 128) 7 (by omega)]; norm_num
      have hcont : (m % 128 + 128) &&& 0x80 = 128 := by
        rw [and_0x80]; omega
      simp only [hres, hcont]
      rw [if_neg (by omega)]
      congr 1
      · rw [hR, hsz, pow_succ]
        calc (r * 128 ^ base128Size (m >>> 7) + m >>> 7) * 128 + m % 128
            = r * (128 ^ base128Size (m >>> 7) * 128) + ((m >>> 7) * 128 + m % 128) := by ring
        _ = r * (128 ^ base128Size (m >>> 7) * 128) + m := by omega
      · omega

theorem unpackBase128Go_cons (r f code : Nat) (rest : List Nat) :
    unpackBase128Go r (f + 1) (code :: rest) =
      if r &&& 0xFE000000 ≠ 0 then .error "UIntBase128 value exceeds 2**32-1"
      else if code &&& 0x80 = 0 then .ok ((r <<< 7) ||| (code &&& 0x7f), rest)
      else unpackBase128Go ((r <<< 7) ||| (code &&& 0x7f)) f rest := rfl

theorem packHighBytes_cons (m : Nat) (hm : 1 ≤ m) :
    ∃ b t, packHighBytes m = b :: t ∧ b ≠ 0x80 := by
  have hs : 1 ≤ base128Size m := by
    rw [base128Size]; split <;> omega
  obtain ⟨s, hsz⟩ : ∃ s, base128Size m = s + 1 := ⟨base128Size m - 1, by omega⟩
  have hd1 : 1 ≤ m / 128 ^ s := by
    apply Nat.one_le_div_iff (Nat.pos_pow_of_pos _ (by norm_num)) |>.mpr
    have := base128_lower m hm
    rw [hsz] at this
    simpa using this
  have hd2 : m / 128 ^ s < 128 := by
    apply Nat.div_lt_iff_lt_mul (Nat.pos_pow_of_pos _ (by norm_num)) |>.mpr
    calc m < 128 ^ base128Size m := base128_upper m
    _ = 128 * 128 ^ s := by rw [hsz, Nat.pow_succ']
  unfold packHighBytes
  rw [hsz, List.range_succ_eq_map, List.map_cons]
  refine ⟨_, _, rfl, ?_⟩
  rw [show (s + 1 - 0 - 1) = s from by omega]
  rw [shr_eq, Nat.pow_mul, and_0x7f]
  rw [or_0x80 _ (Nat.mod_lt _ (by norm_num))]
  have h128 : ((2 : Nat) ^ 7) ^ s = 128 ^ s := by norm_num
  rw [h128]
  omega

/-- C3: UIntBase128 round-trip and minimality.  For every `n < 2^32`,
`packBase128` succeeds, decoding the packed bytes (with any suffix)
returns `n` and the untouched suffix, and the packed length is
`base128Size n`. -/
theorem packBase128_roundtrip (n : Nat) (rest : List Nat) (h : n < 2 ^ 32) :
    packBase128 n = .ok (packBase128Bytes n) ∧
    unpackBase128 (packBase128Bytes n ++ rest) = .ok (n, rest) ∧
    (packBase128Bytes n).length = base128Size n := by
  refine ⟨by rw [packBase128, if_neg (by omega)], ?_, by simp [packBase128Bytes]⟩
  rcases Nat.lt_or_ge n 128 with hn | hn
  · rw [packBase128Bytes_lt n hn]
    show unpackBase128 (n :: rest) = _
    rw [unpackBase128]
    rw [if_neg (by omega)]
    show unpackBase128Go 0 (4 + 1) (n :: rest) = _
    rw [unpackBase128Go_cons]
    rw [if_neg (by norm_num)]
    rw [and_0x80, and_0x7f]
    rw [if_pos (by omega)]
    have : (0 <<< 7) ||| (n % 128) = n := by
      rw [or_of_lt 0 (n % 128) 7 (by omega)]
      omega
    rw [this]
  · have hm1 : 1 ≤ n >>> 7 := by
      rw [shr_eq]
      exact Nat.one_le_div_iff (by norm_num) |>.mpr (by norm_num; omega)
    have hszm : base128Size (n >>> 7) ≤ 4 := by
      have h4 : n >>> 7 < 128 ^ 4 := by
        rw [shr_eq]
        have : n / 2 ^ 7 < 2 ^ 25 := by omega
        calc n / 2 ^ 7 < 2 ^ 25 := this
        _ ≤ 128 ^ 4 := by norm_num
      have := base128Size_le 3 (n >>> 7) (by exact_mod_cast h4)
      omega
    rw [packBase128Bytes_ge n hn, List.append_assoc]
    obtain ⟨b, t, hbt, hb⟩ := packHighBytes_cons (n >>> 7) hm1
    rw [hbt, List.cons_append, unpackBase128, if_neg hb, ← List.cons_append, ← hbt]
    have hbound : 0 * 128 ^ base128Size (n >>> 7) + n >>> 7 < 2 ^ 32 := by
      have : n >>> 7 ≤ n := by rw [shr_eq]; exact Nat.div_le_self _ _
      omega
    rw [unpackBase128Go_packHigh (n >>> 7) 0 5 _ hbound (by omega)]
    rw [Nat.zero_mul, Nat.zero_add]
    obtain ⟨f, hf⟩ : ∃ f, 5 - base128Size (n >>> 7) = f + 1 :=
      ⟨4 - base128Size (n >>> 7), by omega⟩
    rw [hf]
    show unpackBase128Go (n >>> 7) (f + 1) ((n &&& 0x7f) :: rest) = _
    rw [unpackBase128Go_cons]
    have hsmall : n >>> 7 < 2 ^ 25 := by rw [shr_eq]; omega
    rw [and_0xFE000000, if_neg (by push_neg; omega)]
    rw [and_0x7f n]
    have hc80 : n % 128 &&& 0x80 = 0 := by rw [and_0x80]; omega
    rw [hc80, if_pos rfl]
    have hc77 : n % 128 &&& 0x7f = n % 128 := by rw [and_0x7f]; omega
    rw [hc77]
    have : ((n >>> 7) <<< 7) ||| (n % 128) = n := by
      rw [or_of_lt _ _ 7 (by omega), shr_eq]
      norm_num
      omega
    rw [this]

/-- Specification-side value denoted by a UIntBase128 byte sequence:
big-endian base-128 digits taken from the low seven bits of each byte. -/
def base128SpecValue (data : List Nat) : Nat :=
  data.foldl (fun acc b => acc * 128 + b % 128) 0

theorem foldl_base128_le (l : List Nat) :
    ∀ a : Nat, a ≤ List.foldl (fun acc b => acc * 128 + b % 128) a l := by
  induction l with
  | nil => intro a; simp
  | cons b t ih =>
    intro a
    simp only [List.foldl_cons]
    calc a ≤ a * 128 + b % 128 := by omega
    _ ≤ List.foldl (fun acc b => acc * 128 + b % 128) (a * 128 + b % 128) t := ih _

theorem unpackBase128Go_all_cont :
    ∀ (fuel : Nat) (data : List Nat) (acc : Nat),
      (∀ i, i < fuel → data.getD i 0 &&& 0x80 ≠ 0) → fuel ≤ data.length →
      ∃ e, unpackBase128Go acc fuel data = .error e := by
  intro fuel
  induction fuel with
  | zero => intro data acc _ _; exact ⟨_, rfl⟩
  | succ f ih =>
    intro data acc hcont hlen
    match data with
    | [] => simp at hlen
    | d :: rest =>
      rw [unpackBase128Go_cons]
      by_cases hchk : acc &&& 0xFE000000 ≠ 0
      · rw [if_pos hchk]; exact ⟨_, rfl⟩
      · rw [if_neg hchk]
        have hd : d &&& 0x80 ≠ 0 := by
          have := hcont 0 (by omega)
          simpa using this
        rw [if_neg hd]
        apply ih rest _ (fun i hi => ?_) (by simpa using hlen)
        have := hcont (i + 1) (by omega)
        simpa using this

theorem unpackBase128Go_spec :
    ∀ (k : Nat) (data : List Nat) (acc fuel : Nat), k < fuel →
      (∀ i, i < k → data.getD i 0 &&& 0x80 ≠ 0) →
      k < data.length →
      data.getD k 0 &&& 0x80 = 0 →
      acc < 2 ^ 32 →
      unpackBase128Go acc fuel data =
        (if List.foldl (fun a b => a * 128 + b % 128) acc (data.take (k + 1)) < 2 ^ 32
         then .ok (List.foldl (fun a b => a * 128 + b % 128) acc (data.take (k + 1)),
                   data.drop (k + 1))
         else .error "UIntBase128 value exceeds 2**32-1") := by
  intro k
  induction k with
  | zero =>
    intro data acc fuel hfuel hcont hlen hterm hacc
    match data, hlen with
    | d :: rest, hlen =>
      obtain ⟨f, rfl⟩ : ∃ f, fuel = f + 1 := ⟨fuel - 1, by omega⟩
      rw [unpackBase128Go_cons]
      simp only [List.getD_cons_zero] at hterm
      simp only [List.take_succ_cons, List.take_zero, List.foldl_cons, List.foldl_nil,
        List.drop_succ_cons, List.drop_zero]
      by_cases hchk : acc &&& 0xFE000000 ≠ 0
      · rw [if_pos hchk]
        rw [and_0xFE000000] at hchk
        have : 2 ^ 25 ≤ acc := by
          rcases Nat.lt_or_ge acc (2 ^ 25) with h | h
          · exfalso; apply hchk; omega
          · exact h
        rw [if_neg (by omega)]
      · rw [if_neg hchk, if_pos hterm]
        rw [and_0xFE000000] at hchk
        push_neg at hchk
        have hlt : acc < 2 ^ 25 := by omega
        have : (acc <<< 7) ||| (d &&& 0x7f) = acc * 128 + d % 128 := by
          rw [and_0x7f, or_of_lt _ _ 7 (by omega)]
          norm_num
        rw [this, if_pos (by omega)]
  | succ k ih =>
    intro data acc fuel hfuel hcont hlen hterm hacc
    match data, hlen with
    | d :: rest, hlen =>
      obtain ⟨f, rfl⟩ : ∃ f, fuel = f + 1 := ⟨fuel - 1, by omega⟩
      rw [unpackBase128Go_cons]
      have hd : d &&& 0x80 ≠ 0 := by
        have := hcont 0 (by omega)
        simpa using this
      simp only [List.take_succ_cons, List.foldl_cons, List.drop_succ_cons]
      by_cases hchk : acc &&& 0xFE000000 ≠ 0
      · rw [if_pos hchk]
        rw [and_0xFE000000] at hchk
        have h25 : 2 ^ 25 ≤ acc := by
          rcases Nat.lt_or_ge acc (2 ^ 25) with h | h
          · exfalso; apply hchk; omega
          · exact h
        have hge := foldl_base128_le (rest.take (k + 1)) (acc * 128 + d % 128)
        rw [if_neg (by omega)]
      · rw [if_neg hchk, if_neg hd]
        rw [and_0xFE000000] at hchk
        push_neg at hchk
        have hlt : acc < 2 ^ 25 := by omega
        have hres : (acc <<< 7) ||| (d &&& 0x7f) = acc * 128 + d % 128 := by
          rw [and_0x7f, or_of_lt _ _ 7 (by omega)]
          norm_num
        rw [hres]
        apply ih rest _ f (by omega) (fun i hi => ?_) (by simpa using hlen)
          (by simpa using hterm) (by omega)
        have := hcont (i + 1) (by omega)
        simpa using this

/-- C4: UIntBase128 rejection.  The decoder errors on (a) inputs whose
first five bytes all carry the continuation bit, (b) inputs starting
with the leading-zero byte `0x80`, and on inputs denoting a value
of `2^32` or more; on every other non-empty well-formed input
(terminator within five bytes) it succeeds with the denoted value. -/
theorem unpackBase128_rejection :
    (∀ data : List Nat, (∀ i, i < 5 → data.getD i 0 &&& 0x80 ≠ 0) → 5 ≤ data.length →
        ∃ e, unpackBase128 data = .error e) ∧
    (∀ rest : List Nat, ∃ e, unpackBase128 (0x80 :: rest) = .error e) ∧
    (∀ (data : List Nat) (k : Nat), k < 5 →
        (∀ i, i < k → data.getD i 0 &&& 0x80 ≠ 0) →
        k < data.length → data.getD k 0 &&& 0x80 = 0 →
        data.getD 0 0 ≠ 0x80 →
        unpackBase128 data =
          if base128SpecValue (data.take (k + 1)) < 2 ^ 32
          then .ok (base128SpecValue (data.take (k + 1)), data.drop (k + 1))
          else .error "UIntBase128 value exceeds 2**32-1") := by
  refine ⟨?_, ?_, ?_⟩
  · intro data hcont hlen
    match data, hlen with
    | d :: rest, hlen =>
      rw [unpackBase128]
      by_cases hd : d = 0x80
      · rw [if_pos hd]; exact ⟨_, rfl⟩
      · rw [if_neg hd]
        exact unpackBase128Go_all_cont 5 (d :: rest) 0 hcont (by simpa using hlen)
  · intro rest
    rw [unpackBase128, if_pos rfl]
    exact ⟨_, rfl⟩
  · intro data k hk hcont hlen hterm hlead
    match data, hlen with
    | d :: rest, hlen =>
      rw [unpackBase128]
      simp only [List.getD_cons_zero] at hlead
      rw [if_neg hlead]
      exact unpackBase128Go_spec k (d :: rest) 0 5 hk hcont hlen hterm (by norm_num)

/-! ## 255UInt16 (sfnt.py, `unpack255UShort` / `pack255UShort`) -/

/-- Embeds `unpack255UShort` from sfnt.py: prefix byte 253 is followed
by a big-endian u16, prefix 254 adds 506 to the next byte, prefix 255
adds 253 to the next byte, anything below 253 denotes itself. -/
def unpack255UShort (data : List Nat) : Except String (Nat × List Nat) :=
  match data with
  | [] => .error "not enough data to unpack 255UInt16"
  | code :: data =>
    if code = 253 then
      match data with
      | b1 :: b2 :: rest => .ok (b1 * 256 + b2, rest)
      | _ => .error "not enough data to unpack 255UInt16"
    else if code = 254 then
      match data with
      | b :: rest => .ok (b + 506, rest)
      | [] => .error "not enough data to unpack 255UInt16"
    else if code = 255 then
      match data with
      | b :: rest => .ok (b + 253, rest)
      | [] => .error "not enough data to unpack 255UInt16"
    else
      .ok (code, data)

/-- Embeds `pack255UShort` from sfnt.py, which raises outside
`0 <= value <= 65535` and otherwise picks the shortest encoding. -/
def pack255UShort (value : Nat) : Except String (List Nat) :=
  if value > 0xFFFF then
    .error "255UInt16 format requires 0 <= integer <= 65535"
  else if value < 253 then .ok [value]
  else if value < 506 then .ok [255, value - 253]
  else if value < 762 then .ok [254, value - 506]
  else .ok (253 :: toBE16 value)

/-- C5 counterexample: at input 253 the encoder emits `[255, 0]`, not
byte 253 followed by the big-endian u16 encoding of 253. -/
theorem pack255UShort_not_253_prefixed :
    pack255UShort 253 = .ok [255, 0] ∧ pack255UShort 253 ≠ .ok [253, 0, 253] := by
  constructor
  · rfl
  · intro hcontra
    simp [pack255UShort, toBE16] at hcontra

/-- C5 amended: the encoder form is `[n]` for `n < 253`, `[255, n-253]`
for `253 ≤ n < 506`, `[254, n-506]` for `506 ≤ n < 762`, and byte 253
followed by the big-endian u16 for `762 ≤ n ≤ 65535`. -/
theorem pack255UShort_canonical (n : Nat) :
    (n < 253 → pack255UShort n = .ok [n]) ∧
    (253 ≤ n → n < 506 → pack255UShort n = .ok [255, n - 253]) ∧
    (506 ≤ n → n < 762 → pack255UShort n = .ok [254, n - 506]) ∧
    (762 ≤ n → n ≤ 65535 → pack255UShort n = .ok (253 :: toBE16 n)) := by
  refine ⟨?_, ?_, ?_, ?_⟩ <;> intro h1 <;> try intro h2
  · rw [pack255UShort, if_neg (by omega), if_pos (by omega)]
  · rw [pack255UShort, if_neg (by omega), if_neg (by omega), if_pos (by omega)]
  · rw [pack255UShort, if_neg (by omega), if_neg (by omega), if_neg (by omega),
      if_pos (by omega)]
  · rw [pack255UShort, if_neg (by omega), if_neg (by omega), if_neg (by omega),
      if_neg (by omega)]

theorem pack255UShort_canonical_witness :
    pack255UShort 300 = .ok [255, 47] := by
  have h := (pack255UShort_canonical 300).2.1 (by norm_num) (by norm_num)
  simpa using h

/-- C6: 255UInt16 round-trip for every `n ≤ 65535` with no leftover
bytes, and decoder tolerance on the ambiguous encodings of 252 and 506. -/
theorem unpack255UShort_roundtrip :
    (∀ n : Nat, n ≤ 65535 →
        Except.bind (pack255UShort n) unpack255UShort = .ok (n, [])) ∧
    unpack255UShort [0xFC] = .ok (252, []) ∧
    unpack255UShort [0xFE, 0x00] = .ok (506, []) ∧
    unpack255UShort [0xFF, 0xFD] = .ok (506, []) ∧
    unpack255UShort [0xFD, 0x01, 0xFA] = .ok (506, []) := by
  refine ⟨?_, rfl, rfl, rfl, rfl⟩
  intro n hn
  have hc := pack255UShort_canonical n
  rcases Nat.lt_or_ge n 253 with h1 | h1
  · rw [hc.1 h1]
    show unpack255UShort [n] = _
    simp only [unpack255UShort]
    rw [if_neg (by omega), if_neg (by omega), if_neg (by omega)]
  · rcases Nat.lt_or_ge n 506 with h2 | h2
    · rw [hc.2.1 h1 h2]
      show unpack255UShort [255, n - 253] = _
      simp only [unpack255UShort]
      norm_num
      omega
    · rcases Nat.lt_or_ge n 762 with h3 | h3
      · rw [hc.2.2.1 h2 h3]
        show unpack255UShort [254, n - 506] = _
        simp only [unpack255UShort]
        norm_num
        omega
      · rw [hc.2.2.2 h3 hn]
        show unpack255UShort (253 :: toBE16 n) = _
        rw [toBE16]
        simp only [unpack255UShort]
        norm_num
        omega

theorem unpack255UShort_roundtrip_witness :
    Except.bind (pack255UShort 300) unpack255UShort = .ok (300, []) :=
  unpack255UShort_roundtrip.1 300 (by norm_num)

theorem packBase128_roundtrip_witness :
    packBase128 300 = .ok (packBase128Bytes 300) ∧
    unpackBase128 (packBase128Bytes 300 ++ [7]) = .ok (300, [7]) ∧
    (packBase128Bytes 300).length = base128Size 300 :=
  packBase128_roundtrip 300 [7] (by norm_num)

theorem unpackBase128_rejection_witness :
    (∃ e, unpackBase128 [0x8f, 0x80, 0x80, 0x80, 0x80, 0x7f] = .error e) ∧
    (∃ e, unpackBase128 (0x80 :: [0x3f]) = .error e) ∧
    unpackBase128 [0x8f, 0xff, 0xff, 0xff, 0x7f] =
      (if base128SpecValue ([0x8f, 0xff, 0xff, 0xff, 0x7f].take (4 + 1)) < 2 ^ 32
       then .ok (base128SpecValue ([0x8f, 0xff, 0xff, 0xff, 0x7f].take (4 + 1)),
                 [0x8f, 0xff, 0xff, 0xff, 0x7f].drop (4 + 1))
       else .error "UIntBase128 value exceeds 2**32-1") :=
  ⟨unpackBase128_rejection.1 [0x8f, 0x80, 0x80, 0x80, 0x80, 0x7f] (by decide) (by norm_num),
   unpackBase128_rejection.2.1 [0x3f],
   unpackBase128_rejection.2.2 [0x8f, 0xff, 0xff, 0xff, 0x7f] 4 (by norm_num) (by decide)
     (by norm_num) (by decide) (by decide)⟩

/-! ## Short-format loca encoding (sfnt.py, `WOFF2GlyfTable.getLocaData`) -/

/-- Embeds `WOFF2GlyfTable.getLocaData`.  With `indexFormat == 0` the
offsets must all be even and below `0x20000` (the `max()` of Python
raises on an empty list, modelled as an error); each stored offset is
`loca[i] // 2` as a big-endian u16.  Otherwise the offsets are stored
as big-endian u32 values. -/
def getLocaData (locations : List Nat) (indexFormat : Nat) : Except String (List Nat) :=
  if indexFormat = 0 then
    match locations with
    | [] => .error "max() arg is an empty sequence"
    | _ :: _ =>
      if 0x20000 ≤ locations.foldl max 0 then
        .error "indexFormat is 0 but local offsets > 0x20000"
      else if locations.all (fun l => l % 2 == 0) then
        .ok ((locations.map (fun l => l / 2)).flatMap toBE16)
      else
        .error "indexFormat is 0 but local offsets not multiples of 2"
  else
    .ok (locations.flatMap toBE32)

theorem foldl_max_le_iff (l : List Nat) :
    ∀ (a c : Nat), c ≤ l.foldl max a ↔ c ≤ a ∨ ∃ x ∈ l, c ≤ x := by
  induction l with
  | nil => intro a c; simp
  | cons b t ih =>
    intro a c
    simp only [List.foldl_cons, ih (max a b) c, le_max_iff, List.mem_cons]
    constructor
    · rintro ((h | h) | ⟨x, hx, hcx⟩)
      · exact Or.inl h
      · exact Or.inr ⟨b, Or.inl rfl, h⟩
      · exact Or.inr ⟨x, Or.inr hx, hcx⟩
    · rintro (h | ⟨x, hx | hx, hcx⟩)
      · exact Or.inl (Or.inl h)
      · subst hx; exact Or.inl (Or.inr hcx)
      · exact Or.inr ⟨x, hx, hcx⟩

/-- C7: with `indexFormat == 0` the loca encoder fails exactly when some
offset is odd or exceeds `2 * 0xFFFF`; on success it emits the
big-endian u16 array of halved offsets, and with a nonzero index format
the big-endian u32 array of the offsets themselves. -/
theorem getLocaData_spec (locations : List Nat) (indexFormat : Nat)
    (hne : locations ≠ []) :
    ((∃ e, getLocaData locations 0 = .error e) ↔
      ∃ l ∈ locations, l % 2 = 1 ∨ 2 * 0xFFFF < l) ∧
    ((∀ l ∈ locations, l % 2 = 0 ∧ l ≤ 2 * 0xFFFF) →
      getLocaData locations 0 = .ok ((locations.map (fun l => l / 2)).flatMap toBE16)) ∧
    (indexFormat ≠ 0 → getLocaData locations indexFormat = .ok (locations.flatMap toBE32)) := by
  match locations, hne with
  | a :: t, _ =>
    refine ⟨?_, ?_, ?_⟩
    · rw [getLocaData, if_pos rfl]
      by_cases h1 : 0x20000 ≤ (a :: t).foldl max 0
      · rw [if_pos h1]
        refine iff_of_true ⟨_, rfl⟩ ?_
        have := (foldl_max_le_iff (a :: t) 0 0x20000).mp h1
        rcases this with h | ⟨x, hx, hcx⟩
        · omega
        · refine ⟨x, hx, ?_⟩
          norm_num at hcx ⊢
          omega
      · rw [if_neg h1]
        by_cases h2 : (a :: t).all (fun l => l % 2 == 0)
        · rw [if_pos h2]
          simp only [List.all_eq_true, beq_iff_eq] at h2
          constructor
          · rintro ⟨e, he⟩
            cases he
          · rintro ⟨l, hl, hodd | hbig⟩
            · have := h2 l hl
              omega
            · exfalso
              apply h1
              apply (foldl_max_le_iff (a :: t) 0 0x20000).mpr
              refine Or.inr ⟨l, hl, ?_⟩
              have := h2 l hl
              norm_num at hbig ⊢
              omega
        · rw [if_neg h2]
          simp only [List.all_eq_true, beq_iff_eq] at h2
          push_neg at h2
          obtain ⟨l, hl, hodd⟩ := h2
          refine iff_of_true ⟨_, rfl⟩ ?_
          exact ⟨l, hl, Or.inl (by omega)⟩
    · intro hok
      rw [getLocaData, if_pos rfl]
      rw [if_neg ?hmax, if_pos ?hall]
      case hmax =>
        intro hcontra
        have := (foldl_max_le_iff (a :: t) 0 0x20000).mp hcontra
        rcases this with h | ⟨x, hx, hcx⟩
        · omega
        · have := (hok x hx).2
          norm_num at hcx this
          omega
      case hall =>
        simp only [List.all_eq_true, beq_iff_eq]
        intro l hl
        exact (hok l hl).1
    · intro hif
      rw [getLocaData, if_neg hif]

theorem getLocaData_spec_witness :
    ((∃ e, getLocaData [0, 4, 6] 0 = .error e) ↔
      ∃ l ∈ [0, 4, 6], l % 2 = 1 ∨ 2 * 0xFFFF < l) ∧
    ((∀ l ∈ [0, 4, 6], l % 2 = 0 ∧ l ≤ 2 * 0xFFFF) →
      getLocaData [0, 4, 6] 0 = .ok (([0, 4, 6].map (fun l => l / 2)).flatMap toBE16)) ∧
    (1 ≠ 0 → getLocaData [0, 4, 6] 1 = .ok ([0, 4, 6].flatMap toBE32)) :=
  getLocaData_spec [0, 4, 6] 1 (by simp)

/-! ## WOFF2 directory entries (sfnt.py, `WOFF2DirectoryEntry`) -/

/-- Byte encoding of a four-character table tag. -/
def tagBytes (s : String) : List Nat := s.data.map Char.toNat

/-- Embeds the `woff2KnownTags` table (63 entries). -/
def woff2KnownTags : List (List Nat) :=
  ["cmap", "head", "hhea", "hmtx", "maxp", "name", "OS/2", "post", "cvt ",
   "fpgm", "glyf", "loca", "prep", "CFF ", "VORG", "EBDT", "EBLC", "gasp",
   "hdmx", "kern", "LTSH", "PCLT", "VDMX", "vhea", "vmtx", "BASE", "GDEF",
   "GPOS", "GSUB", "EBSC", "JSTF", "MATH", "CBDT", "CBLC", "COLR", "CPAL",
   "SVG ", "sbix", "acnt", "avar", "bdat", "bloc", "bsln", "cvar", "fdsc",
   "feat", "fmtx", "fvar", "gvar", "hsty", "just", "lcar", "mort", "morx",
   "opbd", "prop", "trak", "Zapf", "Silf", "Glat", "Gloc", "Feat", "Sill"].map tagBytes

/-- Embeds `woff2TransformedTableTags = ('glyf', 'loca')`. -/
def woff2TransformedTableTags : List (List Nat) := [tagBytes "glyf", tagBytes "loca"]

/-- Linear search of `getKnownTagIndex`, carrying the running index. -/
def findTagIndex : List (List Nat) → List Nat → Nat → Nat
  | [], _, _ => 0x3F
  | t :: ts, tag, i => if tag = t then i else findTagIndex ts tag (i + 1)

/-- Embeds `getKnownTagIndex`: index of the tag in `woff2KnownTags`,
63 when not found. -/
def getKnownTagIndex (tag : List Nat) : Nat := findTagIndex woff2KnownTags tag 0

structure WOFF2DirectoryEntry where
  flags : Nat
  tag : List Nat
  origLength : Nat
  length : Nat
deriving DecidableEq

/-- Tag-resolution step of `WOFF2DirectoryEntry.fromString`: low six
flag bits 63 mean a 4-byte explicit tag follows, otherwise the tag
comes from the known-tags table. -/
def parseEntryTag (flags : Nat) (data : List Nat) :
    Except String (List Nat × List Nat) :=
  if flags &&& 0x3F = 0x3F then
    if 4 ≤ data.length then .ok (data.take 4, data.drop 4)
    else .error "not enough data to unpack entry tag"
  else .ok (woff2KnownTags.getD (flags &&& 0x3F) [], data)

/-- Embeds `WOFF2DirectoryEntry.fromString` (sfnt.py): flags byte, tag,
reserved-bits check, `origLength` as UIntBase128, and for `glyf`/`loca`
a transformLength which must be zero for `loca`. -/
def woff2DirEntryFromString (data : List Nat) :
    Except String (WOFF2DirectoryEntry × List Nat) :=
  match data with
  | [] => .error "not enough data to unpack entry flags"
  | flags :: data =>
    match parseEntryTag flags data with
    | .error e => .error e
    | .ok (tag, data) =>
      if flags &&& 0xC0 ≠ 0 then .error "bits 6-7 are reserved and must be 0"
      else
        match unpackBase128 data with
        | .error e => .error e
        | .ok (origLength, data) =>
          if tag ∈ woff2TransformedTableTags then
            match unpackBase128 data with
            | .error e => .error e
            | .ok (length, data) =>
              if tag = tagBytes "loca" ∧ length ≠ 0 then
                .error "the transformLength of the loca table must be 0"
              else .ok ({ flags, tag, origLength, length }, data)
          else .ok ({ flags, tag, origLength, length := origLength }, data)

/-- Embeds `WOFF2DirectoryEntry.toString` (sfnt.py). -/
def woff2DirEntryToString (e : WOFF2DirectoryEntry) : Except String (List Nat) :=
  match packBase128 e.origLength with
  | .error err => .error err
  | .ok ol =>
    let tagPart := if e.flags &&& 0x3f = 0x3f then e.tag else []
    if e.tag ∈ woff2TransformedTableTags then
      match packBase128 e.length with
      | .error err => .error err
      | .ok tl => .ok (e.flags :: (tagPart ++ ol ++ tl))
    else .ok (e.flags :: (tagPart ++ ol))

theorem findTagIndex_spec :
    ∀ (ts : List (List Nat)) (tag : List Nat) (i : Nat),
      i + ts.length ≤ 0x3F →
      findTagIndex ts tag i = 0x3F ∨
      ∃ j, j < ts.length ∧ findTagIndex ts tag i = i + j ∧ ts.getD j [] = tag := by
  intro ts
  induction ts with
  | nil => intro tag i _; exact Or.inl rfl
  | cons t ts ih =>
    intro tag i hlen
    rw [findTagIndex]
    by_cases htag : tag = t
    · rw [if_pos htag]
      exact Or.inr ⟨0, by simp, by omega, by simp [htag]⟩
    · rw [if_neg htag]
      rcases ih tag (i + 1) (by simp at hlen ⊢; omega) with h | ⟨j, hj, heq, hget⟩
      · exact Or.inl h
      · exact Or.inr ⟨j + 1, by simp; omega, by omega, by simpa using hget⟩

theorem getKnownTagIndex_getD (tag : List Nat) (h : getKnownTagIndex tag ≠ 0x3F) :
    woff2KnownTags.getD (getKnownTagIndex tag) [] = tag ∧ getKnownTagIndex tag < 63 := by
  have hlen : woff2KnownTags.length = 63 := by rfl
  rcases findTagIndex_spec woff2KnownTags tag 0 (by rw [hlen]) with hc | ⟨j, hj, heq, hget⟩
  · exact absurd hc h
  · unfold getKnownTagIndex
    rw [heq, Nat.zero_add]
    rw [hlen] at hj
    exact ⟨hget, hj⟩

/-- C8: WOFF2 `loca` directory entries.  A successfully parsed entry
with tag `loca` always has `length = 0`, and whenever the decoded
transformLength of a `loca` entry is nonzero the parse errors. -/
theorem woff2_loca_entry :
    (∀ (data rest : List Nat) (e : WOFF2DirectoryEntry),
        woff2DirEntryFromString data = .ok (e, rest) → e.tag = tagBytes "loca" →
        e.length = 0) ∧
    (∀ (flags : Nat) (tail tag data2 : List Nat) (ol : Nat) (data3 : List Nat)
        (n : Nat) (data4 : List Nat),
        parseEntryTag flags tail = .ok (tag, data2) →
        tag = tagBytes "loca" →
        unpackBase128 data2 = .ok (ol, data3) →
        unpackBase128 data3 = .ok (n, data4) →
        n ≠ 0 →
        ∃ err, woff2DirEntryFromString (flags :: tail) = .error err) := by
  have hlocamem : tagBytes "loca" ∈ woff2TransformedTableTags := by decide
  constructor
  · intro data rest e h htag
    match data with
    | [] => simp [woff2DirEntryFromString] at h
    | flags :: tail =>
      simp only [woff2DirEntryFromString] at h
      split at h
      · exact absurd h (by simp)
      · split at h
        · exact absurd h (by simp)
        · split at h
          · exact absurd h (by simp)
          · split at h
            · split at h
              · exact absurd h (by simp)
              · split at h
                · exact absurd h (by simp)
                · simp only [Except.ok.injEq, Prod.mk.injEq] at h
                  obtain ⟨he, hrest⟩ := h
                  subst he
                  simp only at htag
                  rename_i hcond
                  push_neg at hcond
                  exact hcond htag
            · simp only [Except.ok.injEq, Prod.mk.injEq] at h
              obtain ⟨he, hrest⟩ := h
              subst he
              simp only at htag
              rename_i hmem
              rw [htag] at hmem
              exact absurd hlocamem hmem
  · intro flags tail tag data2 ol data3 n data4 hp htag hu1 hu2 hn
    subst htag
    simp only [woff2DirEntryFromString, hp, hu1, hu2]
    by_cases hres : flags &&& 0xC0 ≠ 0
    · rw [if_pos hres]
      exact ⟨_, rfl⟩
    · rw [if_neg hres, if_pos hlocamem, if_pos ⟨trivial, hn⟩]
      exact ⟨_, rfl⟩

theorem woff2_loca_entry_witness :
    (WOFF2DirectoryEntry.mk 11 (tagBytes "loca") 16 0).length = 0 ∧
    ∃ err, woff2DirEntryFromString (11 :: [16, 1]) = .error err :=
  ⟨woff2_loca_entry.1 [11, 16, 0] [] ⟨11, tagBytes "loca", 16, 0⟩ rfl rfl,
   woff2_loca_entry.2 11 [16, 1] (tagBytes "loca") [16, 1] 16 [1] 1 [] rfl rfl
     rfl rfl (by decide)⟩

/-- C10: WOFF2 directory entry serialization round-trip under the
well-formedness conditions of the format: reserved bits clear, low six
flag bits matching the known-tag index (63 for unknown tags), lengths
below `2^32`, `length = origLength` for untransformed tags, and
`length = 0` for `loca`. -/
theorem woff2_entry_roundtrip (e : WOFF2DirectoryEntry) (suffix : List Nat)
    (htag : e.tag.length = 4)
    (hhi : e.flags &&& 0xC0 = 0)
    (hlo : e.flags &&& 0x3F = getKnownTagIndex e.tag)
    (horig : e.origLength < 2 ^ 32)
    (hlen : e.length < 2 ^ 32)
    (hnt : e.tag ∉ woff2TransformedTableTags → e.length = e.origLength)
    (hloca : e.tag = tagBytes "loca" → e.length = 0) :
    ∃ bs, woff2DirEntryToString e = .ok bs ∧
      woff2DirEntryFromString (bs ++ suffix) = .ok (e, suffix) := by
  have hpO : packBase128 e.origLength = .ok (packBase128Bytes e.origLength) :=
    (packBase128_roundtrip e.origLength [] horig).1
  have hpL : packBase128 e.length = .ok (packBase128Bytes e.length) :=
    (packBase128_roundtrip e.length [] hlen).1
  have hresOK : ¬ (e.flags &&& 0xC0 ≠ 0) := by rw [hhi]; simp
  have htagres : ∀ tailrest : List Nat,
      parseEntryTag e.flags
        ((if e.flags &&& 0x3f = 0x3f then e.tag else []) ++ tailrest) =
      .ok (e.tag, tailrest) := by
    intro tailrest
    by_cases hknown : e.flags &&& 0x3F = 0x3F
    · rw [if_pos hknown, parseEntryTag, if_pos hknown]
      rw [if_pos (by rw [List.length_append, htag]; omega)]
      rw [← htag, List.take_left, List.drop_left]
    · rw [if_neg hknown, parseEntryTag, if_neg hknown, hlo]
      have := getKnownTagIndex_getD e.tag (by rw [← hlo]; exact hknown)
      rw [this.1, List.nil_append]
  by_cases htr : e.tag ∈ woff2TransformedTableTags
  · refine ⟨e.flags :: ((if e.flags &&& 0x3f = 0x3f then e.tag else []) ++
      packBase128Bytes e.origLength ++ packBase128Bytes e.length), ?_, ?_⟩
    · rw [woff2DirEntryToString, hpO]
      simp only
      rw [if_pos htr, hpL]
    · simp only [List.cons_append, List.append_assoc]
      rw [woff2DirEntryFromString]
      rw [htagres (packBase128Bytes e.origLength ++ (packBase128Bytes e.length ++ suffix))]
      simp only
      rw [if_neg hresOK]
      rw [(packBase128_roundtrip e.origLength
        (packBase128Bytes e.length ++ suffix) horig).2.1]
      simp only
      rw [if_pos htr]
      rw [(packBase128_roundtrip e.length suffix hlen).2.1]
      simp only
      rw [if_neg ?hnotloca]
      case hnotloca =>
        rintro ⟨hl, hnz⟩
        exact hnz (hloca hl)
  · refine ⟨e.flags :: ((if e.flags &&& 0x3f = 0x3f then e.tag else []) ++
      packBase128Bytes e.origLength), ?_, ?_⟩
    · rw [woff2DirEntryToString, hpO]
      simp only
      rw [if_neg htr]
    · simp only [List.cons_append, List.append_assoc]
      rw [woff2DirEntryFromString]
      rw [htagres (packBase128Bytes e.origLength ++ suffix)]
      simp only
      rw [if_neg hresOK]
      rw [(packBase128_roundtrip e.origLength suffix horig).2.1]
      simp only
      rw [if_neg htr]
      have he : WOFF2DirectoryEntry.mk e.flags e.tag e.origLength e.origLength = e := by
        have hle := hnt htr
        cases e
        simp only at hle ⊢
        rw [hle]
      rw [he]

theorem woff2_entry_roundtrip_witness :
    ∃ bs, woff2DirEntryToString ⟨10, tagBytes "glyf", 300, 200⟩ = .ok bs ∧
      woff2DirEntryFromString (bs ++ [9]) =
        .ok ((⟨10, tagBytes "glyf", 300, 200⟩ : WOFF2DirectoryEntry), [9]) :=
  woff2_entry_roundtrip ⟨10, tagBytes "glyf", 300, 200⟩ [9] rfl rfl rfl (by norm_num)
    (by norm_num) (fun hc => absurd (by decide) hc) (fun h => absurd h (by decide))

/-! ## WOFF directory entries (sfnt.py, `WOFFDirectoryEntry` and
`DirectoryEntry.loadData` / `saveData`)

The zlib compressor and decompressor are external C code; they enter
the embedding as function parameters, with the round-trip assumption
`decompress (compress data) = data` taken as a hypothesis where the
proofs need it. -/

structure WOFFEntryState where
  uncompressed : Bool
  origLength : Nat
  length : Nat
deriving DecidableEq

/-- Embeds `WOFFDirectoryEntry.encodeData`: record `origLength`,
compress unless the entry is marked uncompressed, and keep the raw data
whenever the entry is uncompressed or compression does not strictly
shrink it. -/
def woffEncodeData (compress : List Nat → List Nat) (e : WOFFEntryState)
    (data : List Nat) : WOFFEntryState × List Nat :=
  let e := { e with origLength := data.length }
  let compressedData := compress data
  if e.uncompressed ∨ data.length ≤ compressedData.length then
    (e, data)
  else
    (e, compressedData)

/-- Embeds `DirectoryEntry.saveData`: encode, then record the encoded
length in the entry. -/
def woffSaveData (compress : List Nat → List Nat) (e : WOFFEntryState)
    (data : List Nat) : WOFFEntryState × List Nat :=
  let (e, encoded) := woffEncodeData compress e data
  ({ e with length := encoded.length }, encoded)

/-- Embeds `WOFFDirectoryEntry.decodeData`: raw bytes when
`length == origLength`, zlib decompression when `length < origLength`
(the `assert self.length < self.origLength` is modelled as an error). -/
def woffDecodeData (decompress : List Nat → List Nat) (e : WOFFEntryState)
    (rawData : List Nat) : Except String (List Nat) :=
  if e.length = e.origLength then .ok rawData
  else if e.length < e.origLength then .ok (decompress rawData)
  else .error "assert self.length < self.origLength"

/-- C9: WOFF table store/load.  Storing writes the compressed form
exactly when the entry is not marked uncompressed and compression
strictly shrinks the data (raw bytes otherwise), the recorded length
never exceeds `origLength`, and loading back through the same entry,
which distinguishes the two cases purely by `length < origLength`,
returns the original data. -/
theorem woff_store_load (compress decompress : List Nat → List Nat)
    (e : WOFFEntryState) (data : List Nat)
    (hzlib : decompress (compress data) = data) :
    (woffSaveData compress e data).2 =
      (if e.uncompressed = false ∧ (compress data).length < data.length
       then compress data else data) ∧
    ((woffSaveData compress e data).1.length ≤ (woffSaveData compress e data).1.origLength) ∧
    (¬ (e.uncompressed = false ∧ (compress data).length < data.length) →
      (woffSaveData compress e data).1.length =
        (woffSaveData compress e data).1.origLength) ∧
    woffDecodeData decompress (woffSaveData compress e data).1
        (woffSaveData compress e data).2 = .ok data := by
  simp only [woffSaveData, woffEncodeData]
  by_cases hc : e.uncompressed = true ∨ data.length ≤ (compress data).length
  · rw [if_pos hc]
    simp only
    refine ⟨?_, by omega, fun _ => trivial, ?_⟩
    · rw [if_neg ?hneg]
      case hneg =>
        rintro ⟨hu, hlt⟩
        rcases hc with hc | hc
        · rw [hc] at hu; cases hu
        · omega
    · rw [woffDecodeData, if_pos rfl]
  · rw [if_neg hc]
    push_neg at hc
    obtain ⟨hu, hlt⟩ := hc
    simp only
    have hu' : e.uncompressed = false := by
      cases h : e.uncompressed
      · rfl
      · exact absurd h hu
    refine ⟨by rw [if_pos ⟨hu', hlt⟩], by omega, ?_, ?_⟩
    · intro hcontra
      exact absurd ⟨hu', hlt⟩ hcontra
    · rw [woffDecodeData]
      simp only
      rw [if_neg (by omega), if_pos (by omega), hzlib]

theorem woff_store_load_witness :
    (woffSaveData id ⟨false, 0, 0⟩ [1, 2, 3]).2 =
      (if (false = false ∧ ([1, 2, 3] : List Nat).length < ([1, 2, 3] : List Nat).length)
       then [1, 2, 3] else [1, 2, 3]) ∧
    ((woffSaveData id ⟨false, 0, 0⟩ [1, 2, 3]).1.length ≤
      (woffSaveData id ⟨false, 0, 0⟩ [1, 2, 3]).1.origLength) ∧
    (¬ ((false = false ∧ ([1, 2, 3] : List Nat).length < ([1, 2, 3] : List Nat).length)) →
      (woffSaveData id ⟨false, 0, 0⟩ [1, 2, 3]).1.length =
        (woffSaveData id ⟨false, 0, 0⟩ [1, 2, 3]).1.origLength) ∧
    woffDecodeData id (woffSaveData id ⟨false, 0, 0⟩ [1, 2, 3]).1
        (woffSaveData id ⟨false, 0, 0⟩ [1, 2, 3]).2 = .ok [1, 2, 3] := by
  have h := woff_store_load id id ⟨false, 0, 0⟩ [1, 2, 3] rfl
  simpa using h

/-! ## WOFF2 triplet coder (sfnt.py, `WOFF2GlyfTable._encodeTriplets`
and `_decodeTriplets`), per point -/

/-- Embeds the `withSign` helper of `_decodeTriplets`, whose assert
bounds the magnitude below 65536; bit 0 of the flag selects the sign
(clear means negative). -/
def withSign (flag : Nat) (baseval : Nat) : Except String Int :=
  if baseval < 65536 then
    .ok (if flag &&& 1 ≠ 0 then (baseval : Int) else -(baseval : Int))
  else .error "assert failed: integer overflow"

/-- Pairs two `withSign` computations, propagating the first error, as
the decoder does for `dx` then `dy`. -/
def withSign2 (f1 b1 f2 b2 : Nat) : Except String (Int × Int) :=
  match withSign f1 b1 with
  | .error e => .error e
  | .ok v1 =>
    match withSign f2 b2 with
    | .error e => .error e
    | .ok v2 => .ok (v1, v2)

/-- Embeds the per-point body of `_encodeTriplets`: from the signed
relative coordinates and the on-curve flag, the flag byte and the one
to four `glyphStream` bytes of the point. -/
def encodeTriplet (x y : Int) (onCurve : Bool) : Nat × List Nat :=
  let absX := x.natAbs
  let absY := y.natAbs
  let onCurveBit := if onCurve then 0 else 128
  let xSignBit := if x < 0 then 0 else 1
  let ySignBit := if y < 0 then 0 else 1
  let xySignBits := xSignBit + 2 * ySignBit
  if x = 0 ∧ absY < 1280 then
    (onCurveBit + ((absY &&& 0xf00) >>> 7) + ySignBit, [absY &&& 0xff])
  else if y = 0 ∧ absX < 1280 then
    (onCurveBit + 10 + ((absX &&& 0xf00) >>> 7) + xSignBit, [absX &&& 0xff])
  else if absX < 65 ∧ absY < 65 then
    (onCurveBit + 20 + ((absX - 1) &&& 0x30) + (((absY - 1) &&& 0x30) >>> 2) + xySignBits,
     [(((absX - 1) &&& 0xf) <<< 4) ||| ((absY - 1) &&& 0xf)])
  else if absX < 769 ∧ absY < 769 then
    (onCurveBit + 84 + 12 * (((absX - 1) &&& 0x300) >>> 8) +
       (((absY - 1) &&& 0x300) >>> 6) + xySignBits,
     [(absX - 1) &&& 0xff, (absY - 1) &&& 0xff])
  else if absX < 4096 ∧ absY < 4096 then
    (onCurveBit + 120 + xySignBits,
     [absX >>> 4, ((absX &&& 0xf) <<< 4) ||| (absY >>> 8), absY &&& 0xff])
  else
    (onCurveBit + 124 + xySignBits,
     [absX >>> 8, absX &&& 0xff, absY >>> 8, absY &&& 0xff])

/-- Embeds the per-point body of `_decodeTriplets`: bit 7 of the flag
byte is the off-curve bit, the low seven bits select the byte count
(`b0` of the source is inlined as `flag - 20` or `flag - 84`) and how
`(dx, dy)` are rebuilt; the remaining triplet stream is returned. -/
def decodeTriplet (flagByte : Nat) (triplets : List Nat) :
    Except String (Bool × Int × Int × List Nat) :=
  let onCurve := flagByte >>> 7 == 0
  let flag := flagByte &&& 0x7f
  let nBytes := if flag < 84 then 1 else if flag < 120 then 2 else if flag < 124 then 3 else 4
  if triplets.length < nBytes then
    .error "assert failed: not enough triplet bytes"
  else
    let t := fun i : Nat => triplets.getD i 0
    let dxdy : Except String (Int × Int) :=
      if flag < 10 then
        match withSign flag (((flag &&& 14) <<< 7) + t 0) with
        | .error e => .error e
        | .ok dy => .ok (0, dy)
      else if flag < 20 then
        match withSign flag ((((flag - 10) &&& 14) <<< 7) + t 0) with
        | .error e => .error e
        | .ok dx => .ok (dx, 0)
      else if flag < 84 then
        withSign2 flag (1 + ((flag - 20) &&& 0x30) + (t 0 >>> 4))
          (flag >>> 1) (1 + (((flag - 20) &&& 0x0c) <<< 2) + (t 0 &&& 0x0f))
      else if flag < 120 then
        withSign2 flag (1 + (((flag - 84) / 12) <<< 8) + t 0)
          (flag >>> 1) (1 + ((((flag - 84) % 12) >>> 2) <<< 8) + t 1)
      else if flag < 124 then
        withSign2 flag ((t 0 <<< 4) + (t 1 >>> 4))
          (flag >>> 1) (((t 1 &&& 0x0f) <<< 8) + t 2)
      else
        withSign2 flag ((t 0 <<< 8) + t 1)
          (flag >>> 1) ((t 2 <<< 8) + t 3)
    match dxdy with
    | .error e => .error e
    | .ok (dx, dy) => .ok (onCurve, dx, dy, triplets.drop nBytes)

theorem withSign_eq (f b : Nat) (h : b < 65536) :
    withSign f b = .ok (if f % 2 = 1 then (b : Int) else -(b : Int)) := by
  rw [withSign, if_pos h, and_1]
  by_cases hp : f % 2 = 1
  · rw [if_pos (by omega), if_pos hp]
  · rw [if_neg (by omega), if_neg hp]

theorem withSign2_eq (f1 b1 f2 b2 : Nat) (h1 : b1 < 65536) (h2 : b2 < 65536) :
    withSign2 f1 b1 f2 b2 =
      .ok (if f1 % 2 = 1 then (b1 : Int) else -(b1 : Int),
           if f2 % 2 = 1 then (b2 : Int) else -(b2 : Int)) := by
  rw [withSign2, withSign_eq f1 b1 h1, withSign_eq f2 b2 h2]

theorem decodeTriplet_b1 (oc : Bool) (s a : Nat) (rest : List Nat)
    (hs : s ≤ 1) (ha : a < 1280) :
    decodeTriplet ((if oc then 0 else 128) + ((a &&& 0xf00) >>> 7) + s)
        ((a &&& 0xff) :: rest)
      = .ok (oc, 0, (if s = 1 then (a : Int) else -(a : Int)), rest) := by
  rw [and_0xf00, shr_eq, and_0xff]
  cases oc
  · rw [show (if (false : Bool) then (0 : Nat) else 128) = 128 from rfl]
    simp only [decodeTriplet]
    rw [show (128 + a / 256 % 16 * 256 / 2 ^ 7 + s) &&& 0x7f
        = a / 256 % 16 * 256 / 2 ^ 7 + s from by rw [and_0x7f]; omega]
    rw [show (128 + a / 256 % 16 * 256 / 2 ^ 7 + s) >>> 7 = 1 from by rw [shr_eq]; omega]
    rw [if_pos (show a / 256 % 16 * 256 / 2 ^ 7 + s < 84 from by omega)]
    simp only [List.length_cons, List.getD_cons_zero]
    rw [if_neg (show ¬ (rest.length + 1 < 1) from by omega)]
    rw [if_pos (show a / 256 % 16 * 256 / 2 ^ 7 + s < 10 from by omega)]
    rw [and_14, shl_eq]
    rw [withSign_eq _ _ (by omega)]
    simp only [List.drop_succ_cons, List.drop_zero]
    refine congrArg Except.ok ?_
    refine Prod.ext rfl (Prod.ext rfl (Prod.ext ?_ rfl))
    show (if (a / 256 % 16 * 256 / 2 ^ 7 + s) % 2 = 1
        then ((a / 256 % 16 * 256 / 2 ^ 7 + s) / 2 % 8 * 2 * 2 ^ 7 + a % 256 : Int)
        else -((a / 256 % 16 * 256 / 2 ^ 7 + s) / 2 % 8 * 2 * 2 ^ 7 + a % 256 : Int))
      = (if s = 1 then (a : Int) else -(a : Int))
    split_ifs <;> omega
  · rw [show (if (true : Bool) then (0 : Nat) else 128) = 0 from rfl]
    simp only [decodeTriplet]
    rw [show (0 + a / 256 % 16 * 256 / 2 ^ 7 + s) &&& 0x7f
        = a / 256 % 16 * 256 / 2 ^ 7 + s from by rw [and_0x7f]; omega]
    rw [show (0 + a / 256 % 16 * 256 / 2 ^ 7 + s) >>> 7 = 0 from by rw [shr_eq]; omega]
    rw [if_pos (show a / 256 % 16 * 256 / 2 ^ 7 + s < 84 from by omega)]
    simp only [List.length_cons, List.getD_cons_zero]
    rw [if_neg (show ¬ (rest.length + 1 < 1) from by omega)]
    rw [if_pos (show a / 256 % 16 * 256 / 2 ^ 7 + s < 10 from by omega)]
    rw [and_14, shl_eq]
    rw [withSign_eq _ _ (by omega)]
    simp only [List.drop_succ_cons, List.drop_zero]
    refine congrArg Except.ok ?_
    refine Prod.ext rfl (Prod.ext rfl (Prod.ext ?_ rfl))
    show (if (a / 256 % 16 * 256 / 2 ^ 7 + s) % 2 = 1
        then ((a / 256 % 16 * 256 / 2 ^ 7 + s) / 2 % 8 * 2 * 2 ^ 7 + a % 256 : Int)
        else -((a / 256 % 16 * 256 / 2 ^ 7 + s) / 2 % 8 * 2 * 2 ^ 7 + a % 256 : Int))
      = (if s = 1 then (a : Int) else -(a : Int))
    split_ifs <;> omega

theorem decodeTriplet_b2 (oc : Bool) (s a : Nat) (rest : List Nat)
    (hs : s ≤ 1) (ha : a < 1280) :
    decodeTriplet ((if oc then 0 else 128) + 10 + ((a &&& 0xf00) >>> 7) + s)
        ((a &&& 0xff) :: rest)
      = .ok (oc, (if s = 1 then (a : Int) else -(a : Int)), 0, rest) := by
  rw [and_0xf00, shr_eq, and_0xff]
  cases oc
  · rw [show (if (false : Bool) then (0 : Nat) else 128) = 128 from rfl]
    simp only [decodeTriplet]
    rw [show (128 + 10 + a / 256 % 16 * 256 / 2 ^ 7 + s) &&& 0x7f
        = 10 + a / 256 % 16 * 256 / 2 ^ 7 + s from by rw [and_0x7f]; omega]
    rw [show (128 + 10 + a / 256 % 16 * 256 / 2 ^ 7 + s) >>> 7 = 1 from by rw [shr_eq]; omega]
    rw [if_pos (show 10 + a / 256 % 16 * 256 / 2 ^ 7 + s < 84 from by omega)]
    simp only [List.length_cons, List.getD_cons_zero]
    rw [if_neg (show ¬ (rest.length + 1 < 1) from by omega)]
    rw [if_neg (show ¬ (10 + a / 256 % 16 * 256 / 2 ^ 7 + s < 10) from by omega)]
    rw [if_pos (show 10 + a / 256 % 16 * 256 / 2 ^ 7 + s < 20 from by omega)]
    rw [and_14, shl_eq]
    rw [withSign_eq _ _ (by omega)]
    simp only [List.drop_succ_cons, List.drop_zero]
    refine congrArg Except.ok ?_
    refine Prod.ext rfl (Prod.ext ?_ rfl)
    show (if (10 + a / 256 % 16 * 256 / 2 ^ 7 + s) % 2 = 1
        then (((10 + a / 256 % 16 * 256 / 2 ^ 7 + s - 10) / 2 % 8 * 2 * 2 ^ 7 + a % 256 : Nat) : Int)
        else -(((10 + a / 256 % 16 * 256 / 2 ^ 7 + s - 10) / 2 % 8 * 2 * 2 ^ 7 + a % 256 : Nat) : Int))
      = (if s = 1 then (a : Int) else -(a : Int))
    split_ifs <;> omega
  · rw [show (if (true : Bool) then (0 : Nat) else 128) = 0 from rfl]
    simp only [decodeTriplet]
    rw [show (0 + 10 + a / 256 % 16 * 256 / 2 ^ 7 + s) &&& 0x7f
        = 10 + a / 256 % 16 * 256 / 2 ^ 7 + s from by rw [and_0x7f]; omega]
    rw [show (0 + 10 + a / 256 % 16 * 256 / 2 ^ 7 + s) >>> 7 = 0 from by rw [shr_eq]; omega]
    rw [if_pos (show 10 + a / 256 % 16 * 256 / 2 ^ 7 + s < 84 from by omega)]
    simp only [List.length_cons, List.getD_cons_zero]
    rw [if_neg (show ¬ (rest.length + 1 < 1) from by omega)]
    rw [if_neg (show ¬ (10 + a / 256 % 16 * 256 / 2 ^ 7 + s < 10) from by omega)]
    rw [if_pos (show 10 + a / 256 % 16 * 256 / 2 ^ 7 + s < 20 from by omega)]
    rw [and_14, shl_eq]
    rw [withSign_eq _ _ (by omega)]
    simp only [List.drop_succ_cons, List.drop_zero]
    refine congrArg Except.ok ?_
    refine Prod.ext rfl (Prod.ext ?_ rfl)
    show (if (10 + a / 256 % 16 * 256 / 2 ^ 7 + s) % 2 = 1
        then (((10 + a / 256 % 16 * 256 / 2 ^ 7 + s - 10) / 2 % 8 * 2 * 2 ^ 7 + a % 256 : Nat) : Int)
        else -(((10 + a / 256 % 16 * 256 / 2 ^ 7 + s - 10) / 2 % 8 * 2 * 2 ^ 7 + a % 256 : Nat) : Int))
      = (if s = 1 then (a : Int) else -(a : Int))
    split_ifs <;> omega

theorem decodeTriplet_b3 (oc : Bool) (sx sy a b : Nat) (rest : List Nat)
    (hsx : sx ≤ 1) (hsy : sy ≤ 1) (ha1 : 1 ≤ a) (ha : a < 65) (hb1 : 1 ≤ b) (hb : b < 65) :
    decodeTriplet ((if oc then 0 else 128) + 20 + ((a - 1) &&& 0x30) +
        ((((b - 1) &&& 0x30)) >>> 2) + (sx + 2 * sy))
        (((((a - 1) &&& 0xf) <<< 4) ||| ((b - 1) &&& 0xf)) :: rest)
      = .ok (oc, (if sx = 1 then (a : Int) else -(a : Int)),
             (if sy = 1 then (b : Int) else -(b : Int)), rest) := by
  rw [and_0x30 (a - 1), and_0x30 (b - 1), and_0xf (a - 1), and_0xf (b - 1),
    shr_eq ((b - 1) / 16 % 4 * 16) 2, or_of_lt ((a - 1) % 16) ((b - 1) % 16) 4 (by omega)]
  cases oc
  · rw [show (if (false : Bool) then (0 : Nat) else 128) = 128 from rfl]
    simp only [decodeTriplet]
    rw [show (128 + 20 + (a - 1) / 16 % 4 * 16 + (b - 1) / 16 % 4 * 16 / 2 ^ 2 + (sx + 2 * sy))
        &&& 0x7f = 20 + (a - 1) / 16 % 4 * 16 + (b - 1) / 16 % 4 * 16 / 2 ^ 2 + (sx + 2 * sy)
        from by rw [and_0x7f]; omega]
    rw [show (128 + 20 + (a - 1) / 16 % 4 * 16 + (b - 1) / 16 % 4 * 16 / 2 ^ 2 + (sx + 2 * sy))
        >>> 7 = 1 from by rw [shr_eq]; omega]
    rw [if_pos (show 20 + (a - 1) / 16 % 4 * 16 + (b - 1) / 16 % 4 * 16 / 2 ^ 2 + (sx + 2 * sy)
        < 84 from by omega)]
    simp only [List.length_cons, List.getD_cons_zero]
    rw [if_neg (show ¬ (rest.length + 1 < 1) from by omega)]
    rw [if_neg (show ¬ (20 + (a - 1) / 16 % 4 * 16 + (b - 1) / 16 % 4 * 16 / 2 ^ 2 +
        (sx + 2 * sy) < 10) from by omega)]
    rw [if_neg (show ¬ (20 + (a - 1) / 16 % 4 * 16 + (b - 1) / 16 % 4 * 16 / 2 ^ 2 +
        (sx + 2 * sy) < 20) from by omega)]
    rw [if_pos (show 20 + (a - 1) / 16 % 4 * 16 + (b - 1) / 16 % 4 * 16 / 2 ^ 2 + (sx + 2 * sy)
        < 84 from by omega)]
    simp only [and_0x30, and_0x0c, and_0xf, shl_eq, shr_eq]
    rw [withSign2_eq _ _ _ _ (by omega) (by omega)]
    refine congrArg Except.ok ?_
    simp only [Prod.mk.injEq, List.drop_succ_cons, List.drop_zero]
    refine ⟨?_, ?_, ?_, ?_⟩
    · first | rfl | trivial
    · split_ifs <;> omega
    · split_ifs <;> omega
    · first | rfl | trivial
  · rw [show (if (true : Bool) then (0 : Nat) else 128) = 0 from rfl]
    simp only [decodeTriplet]
    rw [show (0 + 20 + (a - 1) / 16 % 4 * 16 + (b - 1) / 16 % 4 * 16 / 2 ^ 2 + (sx + 2 * sy))
        &&& 0x7f = 20 + (a - 1) / 16 % 4 * 16 + (b - 1) / 16 % 4 * 16 / 2 ^ 2 + (sx + 2 * sy)
        from by rw [and_0x7f]; omega]
    rw [show (0 + 20 + (a - 1) / 16 % 4 * 16 + (b - 1) / 16 % 4 * 16 / 2 ^ 2 + (sx + 2 * sy))
        >>> 7 = 0 from by rw [shr_eq]; omega]
    rw [if_pos (show 20 + (a - 1) / 16 % 4 * 16 + (b - 1) / 16 % 4 * 16 / 2 ^ 2 + (sx + 2 * sy)
        < 84 from by omega)]
    simp only [List.length_cons, List.getD_cons_zero]
    rw [if_neg (show ¬ (rest.length + 1 < 1) from by omega)]
    rw [if_neg (show ¬ (20 + (a - 1) / 16 % 4 * 16 + (b - 1) / 16 % 4 * 16 / 2 ^ 2 +
        (sx + 2 * sy) < 10) from by omega)]
    rw [if_neg (show ¬ (20 + (a - 1) / 16 % 4 * 16 + (b - 1) / 16 % 4 * 16 / 2 ^ 2 +
        (sx + 2 * sy) < 20) from by omega)]
    rw [if_pos (show 20 + (a - 1) / 16 % 4 * 16 + (b - 1) / 16 % 4 * 16 / 2 ^ 2 + (sx + 2 * sy)
        < 84 from by omega)]
    simp only [and_0x30, and_0x0c, and_0xf, shl_eq, shr_eq]
    rw [withSign2_eq _ _ _ _ (by omega) (by omega)]
    refine congrArg Except.ok ?_
    simp only [Prod.mk.injEq, List.drop_succ_cons, List.drop_zero]
    refine ⟨?_, ?_, ?_, ?_⟩
    · first | rfl | trivial
    · split_ifs <;> omega
    · split_ifs <;> omega
    · first | rfl | trivial

theorem decodeTriplet_b4 (oc : Bool) (sx sy a b : Nat) (rest : List Nat)
    (hsx : sx ≤ 1) (hsy : sy ≤ 1) (ha1 : 1 ≤ a) (ha : a < 769) (hb1 : 1 ≤ b) (hb : b < 769) :
    decodeTriplet ((if oc then 0 else 128) + 84 + 12 * (((a - 1) &&& 0x300) >>> 8) +
        (((b - 1) &&& 0x300) >>> 6) + (sx + 2 * sy))
        (((a - 1) &&& 0xff) :: ((b - 1) &&& 0xff) :: rest)
      = .ok (oc, (if sx = 1 then (a : Int) else -(a : Int)),
             (if sy = 1 then (b : Int) else -(b : Int)), rest) := by
  rw [and_0x300 (a - 1), and_0x300 (b - 1), and_0xff (a - 1), and_0xff (b - 1),
    shr_eq ((a - 1) / 256 % 4 * 256) 8, shr_eq ((b - 1) / 256 % 4 * 256) 6]
  cases oc
  · rw [show (if (false : Bool) then (0 : Nat) else 128) = 128 from rfl]
    simp only [decodeTriplet]
    rw [show (128 + 84 + 12 * ((a - 1) / 256 % 4 * 256 / 2 ^ 8) + (b - 1) / 256 % 4 * 256 / 2 ^ 6 + (sx + 2 * sy))
        &&& 0x7f = 84 + 12 * ((a - 1) / 256 % 4 * 256 / 2 ^ 8) + (b - 1) / 256 % 4 * 256 / 2 ^ 6 + (sx + 2 * sy)
        from by rw [and_0x7f]; omega]
    rw [show (128 + 84 + 12 * ((a - 1) / 256 % 4 * 256 / 2 ^ 8) + (b - 1) / 256 % 4 * 256 / 2 ^ 6 + (sx + 2 * sy))
        >>> 7 = 1 from by rw [shr_eq]; omega]
    rw [if_neg (show ¬ (84 + 12 * ((a - 1) / 256 % 4 * 256 / 2 ^ 8) + (b - 1) / 256 % 4 * 256 / 2 ^ 6 + (sx + 2 * sy) < 84) from by omega)]
    rw [if_pos (show 84 + 12 * ((a - 1) / 256 % 4 * 256 / 2 ^ 8) + (b - 1) / 256 % 4 * 256 / 2 ^ 6 + (sx + 2 * sy) < 120 from by omega)]
    simp only [List.length_cons, List.getD_cons_zero, List.getD_cons_succ]
    rw [if_neg (show ¬ (rest.length + 1 + 1 < 2) from by omega)]
    rw [if_neg (show ¬ (84 + 12 * ((a - 1) / 256 % 4 * 256 / 2 ^ 8) + (b - 1) / 256 % 4 * 256 / 2 ^ 6 + (sx + 2 * sy) < 10) from by omega)]
    rw [if_neg (show ¬ (84 + 12 * ((a - 1) / 256 % 4 * 256 / 2 ^ 8) + (b - 1) / 256 % 4 * 256 / 2 ^ 6 + (sx + 2 * sy) < 20) from by omega)]
    rw [if_neg (show ¬ (84 + 12 * ((a - 1) / 256 % 4 * 256 / 2 ^ 8) + (b - 1) / 256 % 4 * 256 / 2 ^ 6 + (sx + 2 * sy) < 84) from by omega)]
    rw [if_pos (show 84 + 12 * ((a - 1) / 256 % 4 * 256 / 2 ^ 8) + (b - 1) / 256 % 4 * 256 / 2 ^ 6 + (sx + 2 * sy) < 120 from by omega)]
    simp only [and_0x30, and_0x0c, and_0xf, shl_eq, shr_eq]
    rw [withSign2_eq _ _ _ _ (by omega) (by omega)]
    refine congrArg Except.ok ?_
    simp only [Prod.mk.injEq, List.drop_succ_cons, List.drop_zero]
    refine ⟨?_, ?_, ?_, ?_⟩
    · first | rfl | trivial
    · split_ifs <;> omega
    · split_ifs <;> omega
    · first | rfl | trivial
  · rw [show (if (true : Bool) then (0 : Nat) else 128) = 0 from rfl]
    simp only [decodeTriplet]
    rw [show (0 + 84 + 12 * ((a - 1) / 256 % 4 * 256 / 2 ^ 8) + (b - 1) / 256 % 4 * 256 / 2 ^ 6 + (sx + 2 * sy))
        &&& 0x7f = 84 + 12 * ((a - 1) / 256 % 4 * 256 / 2 ^ 8) + (b - 1) / 256 % 4 * 256 / 2 ^ 6 + (sx + 2 * sy)
        from by rw [and_0x7f]; omega]
    rw [show (0 + 84 + 12 * ((a - 1) / 256 % 4 * 256 / 2 ^ 8) + (b - 1) / 256 % 4 * 256 / 2 ^ 6 + (sx + 2 * sy))
        >>> 7 = 0 from by rw [shr_eq]; omega]
    rw [if_neg (show ¬ (84 + 12 * ((a - 1) / 256 % 4 * 256 / 2 ^ 8) + (b - 1) / 256 % 4 * 256 / 2 ^ 6 + (sx + 2 * sy) < 84) from by omega)]
    rw [if_pos (show 84 + 12 * ((a - 1) / 256 % 4 * 256 / 2 ^ 8) + (b - 1) / 256 % 4 * 256 / 2 ^ 6 + (sx + 2 * sy) < 120 from by omega)]
    simp only [List.length_cons, List.getD_cons_zero, List.getD_cons_succ]
    rw [if_neg (show ¬ (rest.length + 1 + 1 < 2) from by omega)]
    rw [if_neg (show ¬ (84 + 12 * ((a - 1) / 256 % 4 * 256 / 2 ^ 8) + (b - 1) / 256 % 4 * 256 / 2 ^ 6 + (sx + 2 * sy) < 10) from by omega)]
    rw [if_neg (show ¬ (84 + 12 * ((a - 1) / 256 % 4 * 256 / 2 ^ 8) + (b - 1) / 256 % 4 * 256 / 2 ^ 6 + (sx + 2 * sy) < 20) from by omega)]
    rw [if_neg (show ¬ (84 + 12 * ((a - 1) / 256 % 4 * 256 / 2 ^ 8) + (b - 1) / 256 % 4 * 256 / 2 ^ 6 + (sx + 2 * sy) < 84) from by omega)]
    rw [if_pos (show 84 + 12 * ((a - 1) / 256 % 4 * 256 / 2 ^ 8) + (b - 1) / 256 % 4 * 256 / 2 ^ 6 + (sx + 2 * sy) < 120 from by omega)]
    simp only [and_0x30, and_0x0c, and_0xf, shl_eq, shr_eq]
    rw [withSign2_eq _ _ _ _ (by omega) (by omega)]
    refine congrArg Except.ok ?_
    simp only [Prod.mk.injEq, List.drop_succ_cons, List.drop_zero]
    refine ⟨?_, ?_, ?_, ?_⟩
    · first | rfl | trivial
    · split_ifs <;> omega
    · split_ifs <;> omega
    · first | rfl | trivial

theorem decodeTriplet_b5 (oc : Bool) (sx sy a b : Nat) (rest : List Nat)
    (hsx : sx ≤ 1) (hsy : sy ≤ 1) (ha : a < 4096) (hb : b < 4096) :
    decodeTriplet ((if oc then 0 else 128) + 120 + (sx + 2 * sy))
        ((a >>> 4) :: (((a &&& 0xf) <<< 4) ||| (b >>> 8)) :: (b &&& 0xff) :: rest)
      = .ok (oc, (if sx = 1 then (a : Int) else -(a : Int)),
             (if sy = 1 then (b : Int) else -(b : Int)), rest) := by
  rw [shr_eq a 4, and_0xf a, shr_eq b 8, and_0xff b,
    or_of_lt (a % 16) (b / 2 ^ 8) 4 (by omega)]
  cases oc
  · rw [show (if (false : Bool) then (0 : Nat) else 128) = 128 from rfl]
    simp only [decodeTriplet]
    rw [show (128 + 120 + (sx + 2 * sy))
        &&& 0x7f = 120 + (sx + 2 * sy)
        from by rw [and_0x7f]; omega]
    rw [show (128 + 120 + (sx + 2 * sy))
        >>> 7 = 1 from by rw [shr_eq]; omega]
    rw [if_neg (show ¬ (120 + (sx + 2 * sy) < 84) from by omega)]
    rw [if_neg (show ¬ (120 + (sx + 2 * sy) < 120) from by omega)]
    rw [if_pos (show 120 + (sx + 2 * sy) < 124 from by omega)]
    simp only [List.length_cons, List.getD_cons_zero, List.getD_cons_succ]
    rw [if_neg (show ¬ (rest.length + 1 + 1 + 1 < 3) from by omega)]
    rw [if_neg (show ¬ (120 + (sx + 2 * sy) < 10) from by omega)]
    rw [if_neg (show ¬ (120 + (sx + 2 * sy) < 20) from by omega)]
    rw [if_neg (show ¬ (120 + (sx + 2 * sy) < 84) from by omega)]
    rw [if_neg (show ¬ (120 + (sx + 2 * sy) < 120) from by omega)]
    rw [if_pos (show 120 + (sx + 2 * sy) < 124 from by omega)]
    simp only [and_0x30, and_0x0c, and_0xf, shl_eq, shr_eq]
    rw [withSign2_eq _ _ _ _ (by omega) (by omega)]
    refine congrArg Except.ok ?_
    simp only [Prod.mk.injEq, List.drop_succ_cons, List.drop_zero]
    refine ⟨?_, ?_, ?_, ?_⟩
    · first | rfl | trivial
    · split_ifs <;> omega
    · split_ifs <;> omega
    · first | rfl | trivial
  · rw [show (if (true : Bool) then (0 : Nat) else 128) = 0 from rfl]
    simp only [decodeTriplet]
    rw [show (0 + 120 + (sx + 2 * sy))
        &&& 0x7f = 120 + (sx + 2 * sy)
        from by rw [and_0x7f]; omega]
    rw [show (0 + 120 + (sx + 2 * sy))
        >>> 7 = 0 from by rw [shr_eq]; omega]
    rw [if_neg (show ¬ (120 + (sx + 2 * sy) < 84) from by omega)]
    rw [if_neg (show ¬ (120 + (sx + 2 * sy) < 120) from by omega)]
    rw [if_pos (show 120 + (sx + 2 * sy) < 124 from by omega)]
    simp only [List.length_cons, List.getD_cons_zero, List.getD_cons_succ]
    rw [if_neg (show ¬ (rest.length + 1 + 1 + 1 < 3) from by omega)]
    rw [if_neg (show ¬ (120 + (sx + 2 * sy) < 10) from by omega)]
    rw [if_neg (show ¬ (120 + (sx + 2 * sy) < 20) from by omega)]
    rw [if_neg (show ¬ (120 + (sx + 2 * sy) < 84) from by omega)]
    rw [if_neg (show ¬ (120 + (sx + 2 * sy) < 120) from by omega)]
    rw [if_pos (show 120 + (sx + 2 * sy) < 124 from by omega)]
    simp only [and_0x30, and_0x0c, and_0xf, shl_eq, shr_eq]
    rw [withSign2_eq _ _ _ _ (by omega) (by omega)]
    refine congrArg Except.ok ?_
    simp only [Prod.mk.injEq, List.drop_succ_cons, List.drop_zero]
    refine ⟨?_, ?_, ?_, ?_⟩
    · first | rfl | trivial
    · split_ifs <;> omega
    · split_ifs <;> omega
    · first | rfl | trivial

theorem decodeTriplet_b6 (oc : Bool) (sx sy a b : Nat) (rest : List Nat)
    (hsx : sx ≤ 1) (hsy : sy ≤ 1) (ha : a < 65536) (hb : b < 65536) :
    decodeTriplet ((if oc then 0 else 128) + 124 + (sx + 2 * sy))
        ((a >>> 8) :: (a &&& 0xff) :: (b >>> 8) :: (b &&& 0xff) :: rest)
      = .ok (oc, (if sx = 1 then (a : Int) else -(a : Int)),
             (if sy = 1 then (b : Int) else -(b : Int)), rest) := by
  rw [shr_eq a 8, and_0xff a, shr_eq b 8, and_0xff b]
  cases oc
  · rw [show (if (false : Bool) then (0 : Nat) else 128) = 128 from rfl]
    simp only [decodeTriplet]
    rw [show (128 + 124 + (sx + 2 * sy))
        &&& 0x7f = 124 + (sx + 2 * sy)
        from by rw [and_0x7f]; omega]
    rw [show (128 + 124 + (sx + 2 * sy))
        >>> 7 = 1 from by rw [shr_eq]; omega]
    rw [if_neg (show ¬ (124 + (sx + 2 * sy) < 84) from by omega)]
    rw [if_neg (show ¬ (124 + (sx + 2 * sy) < 120) from by omega)]
    rw [if_neg (show ¬ (124 + (sx + 2 * sy) < 124) from by omega)]
    simp only [List.length_cons, List.getD_cons_zero, List.getD_cons_succ]
    rw [if_neg (show ¬ (rest.length + 1 + 1 + 1 + 1 < 4) from by omega)]
    rw [if_neg (show ¬ (124 + (sx + 2 * sy) < 10) from by omega)]
    rw [if_neg (show ¬ (124 + (sx + 2 * sy) < 20) from by omega)]
    rw [if_neg (show ¬ (124 + (sx + 2 * sy) < 84) from by omega)]
    rw [if_neg (show ¬ (124 + (sx + 2 * sy) < 120) from by omega)]
    rw [if_neg (show ¬ (124 + (sx + 2 * sy) < 124) from by omega)]
    simp only [and_0x30, and_0x0c, and_0xf, shl_eq, shr_eq]
    rw [withSign2_eq _ _ _ _ (by omega) (by omega)]
    refine congrArg Except.ok ?_
    simp only [Prod.mk.injEq, List.drop_succ_cons, List.drop_zero]
    refine ⟨?_, ?_, ?_, ?_⟩
    · first | rfl | trivial
    · split_ifs <;> omega
    · split_ifs <;> omega
    · first | rfl | trivial
  · rw [show (if (true : Bool) then (0 : Nat) else 128) = 0 from rfl]
    simp only [decodeTriplet]
    rw [show (0 + 124 + (sx + 2 * sy))
        &&& 0x7f = 124 + (sx + 2 * sy)
        from by rw [and_0x7f]; omega]
    rw [show (0 + 124 + (sx + 2 * sy))
        >>> 7 = 0 from by rw [shr_eq]; omega]
    rw [if_neg (show ¬ (124 + (sx + 2 * sy) < 84) from by omega)]
    rw [if_neg (show ¬ (124 + (sx + 2 * sy) < 120) from by omega)]
    rw [if_neg (show ¬ (124 + (sx + 2 * sy) < 124) from by omega)]
    simp only [List.length_cons, List.getD_cons_zero, List.getD_cons_succ]
    rw [if_neg (show ¬ (rest.length + 1 + 1 + 1 + 1 < 4) from by omega)]
    rw [if_neg (show ¬ (124 + (sx + 2 * sy) < 10) from by omega)]
    rw [if_neg (show ¬ (124 + (sx + 2 * sy) < 20) from by omega)]
    rw [if_neg (show ¬ (124 + (sx + 2 * sy) < 84) from by omega)]
    rw [if_neg (show ¬ (124 + (sx + 2 * sy) < 120) from by omega)]
    rw [if_neg (show ¬ (124 + (sx + 2 * sy) < 124) from by omega)]
    simp only [and_0x30, and_0x0c, and_0xf, shl_eq, shr_eq]
    rw [withSign2_eq _ _ _ _ (by omega) (by omega)]
    refine congrArg Except.ok ?_
    simp only [Prod.mk.injEq, List.drop_succ_cons, List.drop_zero]
    refine ⟨?_, ?_, ?_, ?_⟩
    · first | rfl | trivial
    · split_ifs <;> omega
    · split_ifs <;> omega
    · first | rfl | trivial

theorem flagbit_lt (F : Nat) (h : F < 128) : F &&& 0x80 = 0 := by
  rw [and_0x80]; omega

theorem flagbit_ge (F : Nat) (h1 : 128 ≤ F) (h2 : F < 256) : F &&& 0x80 = 0x80 := by
  rw [and_0x80]; omega

set_option maxHeartbeats 1000000 in
/-- C1: triplet coordinate round-trip.  For every signed pair with
`|dx|, |dy| <= 32767` and every on-curve flag, decoding the encoded
point (with any trailing stream) returns the same coordinates, the
same on-curve flag and the untouched trailing stream, and bit 7 of the
flag byte is the off-curve bit. -/
theorem triplet_roundtrip (x y : Int) (onCurve : Bool) (rest : List Nat)
    (hx : x.natAbs ≤ 32767) (hy : y.natAbs ≤ 32767) :
    decodeTriplet (encodeTriplet x y onCurve).1 ((encodeTriplet x y onCurve).2 ++ rest) =
      .ok (onCurve, x, y, rest) ∧
    (encodeTriplet x y onCurve).1 &&& 0x80 = (if onCurve then 0 else 0x80) := by
  have hsx : (if x < 0 then (0 : Nat) else 1) ≤ 1 := by split_ifs <;> omega
  have hsy : (if y < 0 then (0 : Nat) else 1) ≤ 1 := by split_ifs <;> omega
  simp only [encodeTriplet]
  by_cases h1 : x = 0 ∧ y.natAbs < 1280
  · rw [if_pos h1]
    simp only []
    constructor
    · simp only [List.cons_append, List.nil_append]
      rw [decodeTriplet_b1 onCurve (if y < 0 then 0 else 1) y.natAbs rest hsy h1.2]
      refine congrArg Except.ok ?_
      obtain ⟨rfl, hy1280⟩ := h1
      refine Prod.ext rfl (Prod.ext rfl (Prod.ext ?_ rfl))
      show (if (if y < 0 then (0 : Nat) else 1) = 1
          then (y.natAbs : Int) else -(y.natAbs : Int)) = y
      rcases lt_or_le y 0 with hneg | hneg
      · rw [if_pos hneg, if_neg (by norm_num)]
        omega
      · rw [if_neg (not_lt.mpr hneg), if_pos rfl]
        omega
    · have hb := h1.2
      simp only [and_0xf00, shr_eq]
      cases onCurve
      · first | simp only [Bool.false_eq_true, if_false] | skip
        exact flagbit_ge _ (by omega) (by split_ifs <;> omega)
      · first | simp only [if_true] | skip
        exact flagbit_lt _ (by split_ifs <;> omega)
  · rw [if_neg h1]
    by_cases h2 : y = 0 ∧ x.natAbs < 1280
    · rw [if_pos h2]
      simp only []
      constructor
      · simp only [List.cons_append, List.nil_append]
        rw [decodeTriplet_b2 onCurve (if x < 0 then 0 else 1) x.natAbs rest hsx h2.2]
        refine congrArg Except.ok ?_
        obtain ⟨hy0, hx1280⟩ := h2
        subst hy0
        refine Prod.ext rfl (Prod.ext ?_ (Prod.ext rfl rfl))
        show (if (if x < 0 then (0 : Nat) else 1) = 1
            then (x.natAbs : Int) else -(x.natAbs : Int)) = x
        rcases lt_or_le x 0 with hneg | hneg
        · rw [if_pos hneg, if_neg (by norm_num)]
          omega
        · rw [if_neg (not_lt.mpr hneg), if_pos rfl]
          omega
      · have hb := h2.2
        simp only [and_0xf00, shr_eq]
        cases onCurve
        · first | simp only [Bool.false_eq_true, if_false] | skip
          exact flagbit_ge _ (by omega) (by split_ifs <;> omega)
        · first | simp only [if_true] | skip
          exact flagbit_lt _ (by split_ifs <;> omega)
    · rw [if_neg h2]
      have hx0 : x = 0 → 1280 ≤ y.natAbs := by
        intro hx00
        subst hx00
        simp only [eq_self_iff_true, true_and] at h1
        omega
      have hy0 : y = 0 → 1280 ≤ x.natAbs := by
        intro hy00
        subst hy00
        simp only [eq_self_iff_true, true_and] at h2
        omega
      by_cases h3 : x.natAbs < 65 ∧ y.natAbs < 65
      · rw [if_pos h3]
        have ha1 : 1 ≤ x.natAbs := by
          rcases eq_or_ne x 0 with rfl | hne
          · have h1280 := hx0 rfl
            have := h3.2
            omega
          · exact Int.natAbs_pos.mpr hne
        have hb1 : 1 ≤ y.natAbs := by
          rcases eq_or_ne y 0 with rfl | hne
          · have h1280 := hy0 rfl
            have := h3.1
            omega
          · exact Int.natAbs_pos.mpr hne
        simp only []
        constructor
        · simp only [List.cons_append, List.nil_append]
          rw [decodeTriplet_b3 onCurve (if x < 0 then 0 else 1) (if y < 0 then 0 else 1)
            x.natAbs y.natAbs rest hsx hsy ha1 h3.1 hb1 h3.2]
          refine congrArg Except.ok ?_
          refine Prod.ext rfl (Prod.ext ?_ (Prod.ext ?_ rfl))
          · show (if (if x < 0 then (0 : Nat) else 1) = 1
                then (x.natAbs : Int) else -(x.natAbs : Int)) = x
            rcases lt_or_le x 0 with hneg | hneg
            · rw [if_pos hneg, if_neg (by norm_num)]
              omega
            · rw [if_neg (not_lt.mpr hneg), if_pos rfl]
              omega
          · show (if (if y < 0 then (0 : Nat) else 1) = 1
                then (y.natAbs : Int) else -(y.natAbs : Int)) = y
            rcases lt_or_le y 0 with hneg | hneg
            · rw [if_pos hneg, if_neg (by norm_num)]
              omega
            · rw [if_neg (not_lt.mpr hneg), if_pos rfl]
              omega
        · have hax := h3.1
          have hay := h3.2
          simp only [and_0x30, shr_eq]
          cases onCurve
          · first | simp only [Bool.false_eq_true, if_false] | skip
            exact flagbit_ge _ (by omega) (by split_ifs <;> omega)
          · first | simp only [if_true] | skip
            exact flagbit_lt _ (by split_ifs <;> omega)
      · rw [if_neg h3]
        by_cases h4 : x.natAbs < 769 ∧ y.natAbs < 769
        · rw [if_pos h4]
          have ha1 : 1 ≤ x.natAbs := by
            rcases eq_or_ne x 0 with rfl | hne
            · have h1280 := hx0 rfl
              have := h4.2
              omega
            · exact Int.natAbs_pos.mpr hne
          have hb1 : 1 ≤ y.natAbs := by
            rcases eq_or_ne y 0 with rfl | hne
            · have h1280 := hy0 rfl
              have := h4.1
              omega
            · exact Int.natAbs_pos.mpr hne
          simp only []
          constructor
          · simp only [List.cons_append, List.nil_append]
            rw [decodeTriplet_b4 onCurve (if x < 0 then 0 else 1) (if y < 0 then 0 else 1)
              x.natAbs y.natAbs rest hsx hsy ha1 h4.1 hb1 h4.2]
            refine congrArg Except.ok ?_
            refine Prod.ext rfl (Prod.ext ?_ (Prod.ext ?_ rfl))
            · show (if (if x < 0 then (0 : Nat) else 1) = 1
                  then (x.natAbs : Int) else -(x.natAbs : Int)) = x
              rcases lt_or_le x 0 with hneg | hneg
              · rw [if_pos hneg, if_neg (by norm_num)]
                omega
              · rw [if_neg (not_lt.mpr hneg), if_pos rfl]
                omega
            · show (if (if y < 0 then (0 : Nat) else 1) = 1
                  then (y.natAbs : Int) else -(y.natAbs : Int)) = y
              rcases lt_or_le y 0 with hneg | hneg
              · rw [if_pos hneg, if_neg (by norm_num)]
                omega
              · rw [if_neg (not_lt.mpr hneg), if_pos rfl]
                omega
          · have hax := h4.1
            have hay := h4.2
            simp only [and_0x300, shr_eq]
            cases onCurve
            · first | simp only [Bool.false_eq_true, if_false] | skip
              exact flagbit_ge _ (by omega) (by split_ifs <;> omega)
            · first | simp only [if_true] | skip
              exact flagbit_lt _ (by split_ifs <;> omega)
        · rw [if_neg h4]
          by_cases h5 : x.natAbs < 4096 ∧ y.natAbs < 4096
          · rw [if_pos h5]
            simp only []
            constructor
            · simp only [List.cons_append, List.nil_append]
              rw [decodeTriplet_b5 onCurve (if x < 0 then 0 else 1) (if y < 0 then 0 else 1)
                x.natAbs y.natAbs rest hsx hsy h5.1 h5.2]
              refine congrArg Except.ok ?_
              refine Prod.ext rfl (Prod.ext ?_ (Prod.ext ?_ rfl))
              · show (if (if x < 0 then (0 : Nat) else 1) = 1
                    then (x.natAbs : Int) else -(x.natAbs : Int)) = x
                rcases lt_or_le x 0 with hneg | hneg
                · rw [if_pos hneg, if_neg (by norm_num)]
                  omega
                · rw [if_neg (not_lt.mpr hneg), if_pos rfl]
                  omega
              · show (if (if y < 0 then (0 : Nat) else 1) = 1
                    then (y.natAbs : Int) else -(y.natAbs : Int)) = y
                rcases lt_or_le y 0 with hneg | hneg
                · rw [if_pos hneg, if_neg (by norm_num)]
                  omega
                · rw [if_neg (not_lt.mpr hneg), if_pos rfl]
                  omega
            · cases onCurve
              · first | simp only [Bool.false_eq_true, if_false] | skip
                exact flagbit_ge _ (by omega) (by split_ifs <;> omega)
              · first | simp only [if_true] | skip
                exact flagbit_lt _ (by split_ifs <;> omega)
          · rw [if_neg h5]
            simp only []
            constructor
            · simp only [List.cons_append, List.nil_append]
              rw [decodeTriplet_b6 onCurve (if x < 0 then 0 else 1) (if y < 0 then 0 else 1)
                x.natAbs y.natAbs rest hsx hsy (by omega) (by omega)]
              refine congrArg Except.ok ?_
              refine Prod.ext rfl (Prod.ext ?_ (Prod.ext ?_ rfl))
              · show (if (if x < 0 then (0 : Nat) else 1) = 1
                    then (x.natAbs : Int) else -(x.natAbs : Int)) = x
                rcases lt_or_le x 0 with hneg | hneg
                · rw [if_pos hneg, if_neg (by norm_num)]
                  omega
                · rw [if_neg (not_lt.mpr hneg), if_pos rfl]
                  omega
              · show (if (if y < 0 then (0 : Nat) else 1) = 1
                    then (y.natAbs : Int) else -(y.natAbs : Int)) = y
                rcases lt_or_le y 0 with hneg | hneg
                · rw [if_pos hneg, if_neg (by norm_num)]
                  omega
                · rw [if_neg (not_lt.mpr hneg), if_pos rfl]
                  omega
            · cases onCurve
              · first | simp only [Bool.false_eq_true, if_false] | skip
                exact flagbit_ge _ (by omega) (by split_ifs <;> omega)
              · first | simp only [if_true] | skip
                exact flagbit_lt _ (by split_ifs <;> omega)

theorem triplet_roundtrip_witness :
    decodeTriplet (encodeTriplet 3 (-5) true).1 ((encodeTriplet 3 (-5) true).2 ++ [9]) =
      .ok (true, 3, -5, [9]) ∧
    (encodeTriplet 3 (-5) true).1 &&& 0x80 = (if true then 0 else 0x80) :=
  triplet_roundtrip 3 (-5) true [9] (by norm_num) (by norm_num)

/-! ## SFNT writer and checkSumAdjustment (sfnt.py, `SFNTWriter`,
`calcChecksum`, `_calcMasterChecksum`) -/

/-- Big-endian 32-bit words of a byte string, four bytes at a time
(`struct.unpack(">%dL" % ...)`). -/
def beWords : List Nat → List Nat
  | b0 :: b1 :: b2 :: b3 :: rest => (((b0 * 256 + b1) * 256 + b2) * 256 + b3) :: beWords rest
  | _ => []

/-- Embeds `calcChecksum`: pad with NUL bytes to a multiple of four,
then sum the big-endian u32 words modulo `2^32` (the source masks with
`0xffffffff` once per 4096-byte block; folding the mask through every
addition yields the same value). -/
def calcChecksum (data : List Nat) : Nat :=
  let padded := data ++ List.replicate ((4 - data.length % 4) % 4) 0
  (beWords padded).foldl (fun acc w => (acc + w) % 2 ^ 32) 0

/-- The `head` table tag. -/
def headTag : List Nat := tagBytes "head"

/-- Modelled from the spec: `getSearchRange` lives in
`fontTools/ttLib/__init__.py`, which is not among the sources here.
Spec section 4.4: `searchRange = itemSize * 2^floor(log2 numTables)`,
`entrySelector = floor(log2 numTables)`,
`rangeShift = itemSize * numTables - searchRange`. -/
def getSearchRange (n : Nat) (itemSize : Nat) : Nat × Nat × Nat :=
  let exponent := Nat.log2 n
  let searchRange := itemSize * 2 ^ exponent
  (searchRange, exponent, itemSize * n - searchRange)

structure SFNTEntry where
  tag : List Nat
  checkSum : Nat
  offset : Nat
  length : Nat
deriving DecidableEq

/-- Embeds `SFNTDirectoryEntry.toString` via `sfntDirectoryEntryFormat`:
`tag (4s) | checkSum (L) | offset (L) | length (L)`. -/
def sfntEntryToString (e : SFNTEntry) : List Nat :=
  e.tag ++ toBE32 e.checkSum ++ toBE32 e.offset ++ toBE32 e.length

/-- State of an `SFNTWriter` (plain sfnt flavor): the bytes written so
far, the next free table offset, the ordered table dictionary and the
recorded raw `head` table. -/
structure WriterState where
  sfntVersion : List Nat
  numTables : Nat
  file : List Nat
  nextTableOffset : Nat
  tables : List (List Nat × SFNTEntry)
  headTable : Option (List Nat)
deriving DecidableEq

/-- Embeds `SFNTWriter.__init__` and `_seekFirstTable`: the directory
area (`sfntDirectorySize + numTables * 16` bytes) is cleared with NUL
bytes and the first table starts right after it. -/
def initWriter (numTables : Nat) (sfntVersion : List Nat) : WriterState :=
  let nextTableOffset := 12 + numTables * 16
  { sfntVersion := sfntVersion, numTables := numTables,
    file := List.replicate nextTableOffset 0,
    nextTableOffset := nextTableOffset, tables := [], headTable := none }

/-- Overwrite `bs` into `file` starting at `off` (a `seek` followed by
a `write` inside the already-written region). -/
def writeAt (file : List Nat) (off : Nat) (bs : List Nat) : List Nat :=
  file.take off ++ bs ++ file.drop (off + bs.length)

/-- The data of the `head` table with the 4-byte `checkSumAdjustment`
field at offset 8 replaced by zeros, as in `SFNTWriter.__setitem__`. -/
def zeroHeadChecksum (data : List Nat) : List Nat :=
  data.take 8 ++ [0, 0, 0, 0] ++ data.drop 12

/-- Embeds `SFNTWriter.__setitem__` together with `_writeTable`:
rewriting a tag raises; the `head` checkSum is computed over the data
with the checkSumAdjustment field zeroed; the data is written at the
current `nextTableOffset` (always the end of the file, since the
writer only appends) and padded with NUL bytes to a 4-byte boundary
(`(length + 3) & ~3`). -/
def setItem (s : WriterState) (tag data : List Nat) : Except String WriterState :=
  if s.tables.any (fun p => p.1 = tag) then
    .error "cannot rewrite table"
  else
    let cs := if tag = headTag then calcChecksum (zeroHeadChecksum data)
              else calcChecksum data
    let headTable := if tag = headTag then some data else s.headTable
    let entry : SFNTEntry :=
      { tag := tag, checkSum := cs, offset := s.nextTableOffset, length := data.length }
    let paddedLength := (data.length + 3) / 4 * 4
    .ok { s with
      file := s.file ++ data ++ List.replicate (paddedLength - data.length) 0,
      nextTableOffset := s.nextTableOffset + paddedLength,
      tables := s.tables ++ [(tag, entry)],
      headTable := headTable }

/-- Runs a sequence of `__setitem__` calls. -/
def runSetItems (s : WriterState) : List (List Nat × List Nat) → Except String WriterState
  | [] => .ok s
  | (tag, data) :: rest =>
    match setItem s tag data with
    | .error e => .error e
    | .ok s1 => runSetItems s1 rest

/-- Python dict lookup on the ordered table list. -/
def lookupTable (tables : List (List Nat × SFNTEntry)) (tag : List Nat) :
    Option SFNTEntry :=
  (tables.find? (fun p => p.1 = tag)).map (fun p => p.2)

/-- Insertion into a tag-sorted list, comparing 4-byte tags
lexicographically as Python compares the `(tag, entry)` tuples. -/
def tagLtBytes : List Nat → List Nat → Bool
  | [], [] => false
  | [], _ :: _ => true
  | _ :: _, [] => false
  | a :: as, b :: bs => if a < b then true else if b < a then false else tagLtBytes as bs

def insertByTag (p : List Nat × SFNTEntry) :
    List (List Nat × SFNTEntry) → List (List Nat × SFNTEntry)
  | [] => [p]
  | q :: rest => if tagLtBytes q.1 p.1 then q :: insertByTag p rest else p :: q :: rest

/-- Embeds `sorted(self.tables.items())`. -/
def sortByTag (l : List (List Nat × SFNTEntry)) : List (List Nat × SFNTEntry) :=
  l.foldr insertByTag []

/-- Embeds `sstruct.pack(sfntDirectoryFormat, self)`:
`sfntVersion (4s) | numTables | searchRange | entrySelector | rangeShift`. -/
def directoryHeader (s : WriterState) : List Nat :=
  let sr := getSearchRange s.numTables 16
  s.sfntVersion ++ toBE16 s.numTables ++ toBE16 sr.1 ++ toBE16 sr.2.1 ++ toBE16 sr.2.2

/-- The SFNT directory written by `close`: header followed by the
sorted directory entries. -/
def closeDirectory (s : WriterState) : List Nat :=
  directoryHeader s ++ ((sortByTag s.tables).map (fun p => sfntEntryToString p.2)).flatten

/-- Embeds `SFNTWriter._calcMasterChecksum`: the sum of the per-table
checkSums plus the checksum of the encoded directory, masked to 32
bits, subtracted from `0xB1B0AFBA` modulo `2^32`. -/
def calcMasterChecksum (s : WriterState) (directory : List Nat) : Nat :=
  let checksum : Nat :=
    ((s.tables.map (fun p => p.2.checkSum)).sum + calcChecksum directory) % 2 ^ 32
  (((0xB1B0AFBA : Int) - (checksum : Int)) % (2 ^ 32 : Int)).toNat

/-- Embeds `SFNTWriter.close` (with `_writeMasterChecksum`): check the
table count, build the sorted directory, write the checkSumAdjustment
into the `head` payload at offset 8 when a `head` table was seen, then
write the directory at the start of the file.  The
`assert directory_end == len(directory)` of `_calcMasterChecksum` is
modelled as an error. -/
def close (s : WriterState) : Except String (List Nat) :=
  if s.tables.length ≠ s.numTables then
    .error "wrong number of tables"
  else
    let directory := closeDirectory s
    let seenHead := (sortByTag s.tables).any (fun p => p.1 = headTag)
    if seenHead then
      if directory.length ≠ 12 + s.tables.length * 16 then
        .error "assert directory_end == len(directory)"
      else
        match lookupTable s.tables headTag with
        | none => .error "KeyError: head"
        | some headEntry =>
          let checksumadjustment := calcMasterChecksum s directory
          let file := writeAt s.file (headEntry.offset + 8) (toBE32 checksumadjustment)
          .ok (writeAt file 0 directory)
    else
      .ok (writeAt s.file 0 directory)

theorem drop_append_exact (l1 l2 : List Nat) (n : Nat) (h : l1.length = n) :
    (l1 ++ l2).drop n = l2 := by
  subst h
  exact List.drop_left l1 l2

theorem take_append_exact (l1 l2 : List Nat) (n : Nat) (h : l1.length = n) :
    (l1 ++ l2).take n = l1 := by
  subst h
  exact List.take_left l1 l2

theorem writeAt_length (file : List Nat) (off : Nat) (bs : List Nat)
    (h : off + bs.length ≤ file.length) :
    (writeAt file off bs).length = file.length := by
  unfold writeAt
  simp only [List.length_append, List.length_take, List.length_drop]
  omega

theorem writeAt_slice (file : List Nat) (off : Nat) (bs : List Nat)
    (h : off ≤ file.length) :
    ((writeAt file off bs).drop off).take bs.length = bs := by
  unfold writeAt
  rw [List.drop_append_of_le_length (by simp; omega)]
  have h2 : (file.take off ++ bs).drop off = bs :=
    drop_append_exact _ _ _ (by simp; omega)
  rw [h2, List.take_left]

theorem writeAt_zero (file : List Nat) (bs : List Nat) :
    writeAt file 0 bs = bs ++ file.drop bs.length := by
  unfold writeAt
  simp

theorem drop_writeAt_zero (file : List Nat) (bs : List Nat) (k : Nat)
    (h : bs.length ≤ k) :
    (writeAt file 0 bs).drop k = file.drop k := by
  rw [writeAt_zero]
  rw [List.drop_append_eq_append_drop]
  rw [List.drop_eq_nil_of_le (by simpa using h)]
  rw [List.nil_append, List.drop_drop]
  congr 1
  omega

theorem mem_insertByTag (p q : List Nat × SFNTEntry) :
    ∀ l : List (List Nat × SFNTEntry), q ∈ insertByTag p l ↔ q = p ∨ q ∈ l := by
  intro l
  induction l with
  | nil => simp [insertByTag]
  | cons r rest ih =>
    rw [insertByTag]
    by_cases hlt : tagLtBytes r.1 p.1
    · rw [if_pos hlt]
      simp only [List.mem_cons, ih]
      tauto
    · rw [if_neg hlt]
      simp only [List.mem_cons]

theorem length_insertByTag (p : List Nat × SFNTEntry) :
    ∀ l : List (List Nat × SFNTEntry), (insertByTag p l).length = l.length + 1 := by
  intro l
  induction l with
  | nil => rfl
  | cons r rest ih =>
    rw [insertByTag]
    by_cases hlt : tagLtBytes r.1 p.1
    · rw [if_pos hlt]
      simp [ih]
    · rw [if_neg hlt]
      simp

theorem mem_sortByTag (q : List Nat × SFNTEntry) (l : List (List Nat × SFNTEntry)) :
    q ∈ sortByTag l ↔ q ∈ l := by
  unfold sortByTag
  induction l with
  | nil => simp
  | cons r rest ih =>
    simp only [List.foldr_cons, mem_insertByTag, ih, List.mem_cons]

theorem length_sortByTag (l : List (List Nat × SFNTEntry)) :
    (sortByTag l).length = l.length := by
  unfold sortByTag
  induction l with
  | nil => rfl
  | cons r rest ih =>
    simp only [List.foldr_cons, length_insertByTag, ih, List.length_cons]

theorem entryStrings_length (l : List (List Nat × SFNTEntry))
    (h : ∀ p ∈ l, p.2.tag.length = 4) :
    ((l.map (fun p => sfntEntryToString p.2)).flatten).length = l.length * 16 := by
  induction l with
  | nil => rfl
  | cons r rest ih =>
    simp only [List.map_cons, List.flatten_cons, List.length_append, List.length_cons]
    rw [ih (fun p hp => h p (List.mem_cons_of_mem r hp))]
    have hr : (sfntEntryToString r.2).length = 16 := by
      unfold sfntEntryToString
      simp only [List.length_append]
      rw [h r (List.mem_cons_self r rest)]
      rfl
    rw [hr]
    ring

theorem closeDirectory_length (s : WriterState)
    (hver : s.sfntVersion.length = 4)
    (htags : ∀ p ∈ s.tables, p.2.tag.length = 4) :
    (closeDirectory s).length = 12 + s.tables.length * 16 := by
  unfold closeDirectory directoryHeader
  simp only [List.length_append]
  rw [entryStrings_length _ (fun p hp => htags p ((mem_sortByTag p s.tables).mp hp))]
  rw [length_sortByTag, hver]
  simp [toBE16]

theorem toBE32_length (v : Nat) : (toBE32 v).length = 4 := rfl

theorem setItem_ok (s : WriterState) (tag data : List Nat) (s1 : WriterState)
    (h : setItem s tag data = .ok s1) :
    s.tables.any (fun p => p.1 = tag) = false ∧
    s1 = { s with
      file := s.file ++ data ++
        List.replicate ((data.length + 3) / 4 * 4 - data.length) 0,
      nextTableOffset := s.nextTableOffset + (data.length + 3) / 4 * 4,
      tables := s.tables ++ [(tag,
        { tag := tag,
          checkSum := if tag = headTag then calcChecksum (zeroHeadChecksum data)
            else calcChecksum data,
          offset := s.nextTableOffset, length := data.length })],
      headTable := if tag = headTag then some data else s.headTable } := by
  unfold setItem at h
  by_cases hany : s.tables.any (fun p => p.1 = tag) = true
  · rw [if_pos hany] at h
    exact Except.noConfusion h
  · rw [if_neg hany] at h
    exact ⟨Bool.eq_false_iff.mpr hany, (Except.ok.inj h).symm⟩

theorem lookupTable_mem (l : List (List Nat × SFNTEntry)) (t : List Nat) (e : SFNTEntry)
    (h : lookupTable l t = some e) : (t, e) ∈ l := by
  unfold lookupTable at h
  cases hf : l.find? (fun p => p.1 = t) with
  | none => rw [hf] at h; exact Option.noConfusion h
  | some q =>
    obtain ⟨q1, q2⟩ := q
    rw [hf] at h
    have hqt : q1 = t := by simpa using List.find?_some hf
    have hqe : q2 = e := by simpa using h
    rw [← hqt, ← hqe]
    exact List.mem_of_find?_eq_some hf

theorem find_tag_none_of_any_false (l : List (List Nat × SFNTEntry)) (t : List Nat)
    (h : l.any (fun p => p.1 = t) = false) :
    l.find? (fun p => p.1 = t) = none := by
  rw [List.find?_eq_none]
  intro x hx
  simp only [List.any_eq_false] at h
  exact h x hx

theorem lookupTable_append_some (l : List (List Nat × SFNTEntry)) (x : List Nat × SFNTEntry)
    (t : List Nat) (e : SFNTEntry) (h : lookupTable l t = some e) :
    lookupTable (l ++ [x]) t = some e := by
  unfold lookupTable at h ⊢
  cases hf : l.find? (fun p => p.1 = t) with
  | none => rw [hf] at h; exact Option.noConfusion h
  | some q =>
    rw [hf] at h
    rw [List.find?_append, hf]
    exact h

theorem lookupTable_append_new (l : List (List Nat × SFNTEntry)) (e : SFNTEntry)
    (t : List Nat) (hnone : l.any (fun p => p.1 = t) = false) :
    lookupTable (l ++ [(t, e)]) t = some e := by
  unfold lookupTable
  rw [List.find?_append, find_tag_none_of_any_false l t hnone]
  simp [List.find?]

/-- Invariant of the writer while tables are being appended: the file
is exactly `nextTableOffset` bytes, the directory region is reserved,
and every recorded entry lies between the directory and the current
end of file, with its recorded tag matching its key. -/
def Inv (s : WriterState) : Prop :=
  s.file.length = s.nextTableOffset ∧
  12 + s.numTables * 16 ≤ s.nextTableOffset ∧
  ∀ p ∈ s.tables, p.2.tag = p.1 ∧ 12 + s.numTables * 16 ≤ p.2.offset ∧
    p.2.offset + p.2.length ≤ s.nextTableOffset

theorem initWriter_inv (numTables : Nat) (sfntVersion : List Nat) :
    Inv (initWriter numTables sfntVersion) := by
  refine ⟨?_, ?_, ?_⟩
  · simp [initWriter]
  · simp [initWriter]
  · intro p hp
    simp [initWriter] at hp

theorem setItem_inv (s : WriterState) (tag data : List Nat) (s1 : WriterState)
    (h : setItem s tag data = .ok s1) (hinv : Inv s) : Inv s1 := by
  obtain ⟨-, hs1⟩ := setItem_ok s tag data s1 h
  obtain ⟨h1, h2, h3⟩ := hinv
  subst hs1
  refine ⟨?_, ?_, ?_⟩
  · simp only [List.length_append, List.length_replicate, h1]
    omega
  · show 12 + s.numTables * 16 ≤ s.nextTableOffset + (data.length + 3) / 4 * 4
    omega
  · intro p hp
    simp only [List.mem_append, List.mem_singleton] at hp
    rcases hp with hp | hp
    · obtain ⟨a, b, c⟩ := h3 p hp
      refine ⟨a, b, ?_⟩
      show p.2.offset + p.2.length ≤ s.nextTableOffset + (data.length + 3) / 4 * 4
      omega
    · subst hp
      refine ⟨rfl, h2, ?_⟩
      show s.nextTableOffset + data.length ≤
        s.nextTableOffset + (data.length + 3) / 4 * 4
      omega

theorem runSetItems_inv :
    ∀ (ins : List (List Nat × List Nat)) (s s' : WriterState),
    runSetItems s ins = .ok s' → Inv s → Inv s' := by
  intro ins
  induction ins with
  | nil =>
    intro s s' hrun hinv
    rw [runSetItems] at hrun
    rw [← Except.ok.inj hrun]
    exact hinv
  | cons q rest ih =>
    obtain ⟨tag, data⟩ := q
    intro s s' hrun hinv
    rw [runSetItems] at hrun
    cases hset : setItem s tag data with
    | error err => rw [hset] at hrun; exact Except.noConfusion hrun
    | ok s1 =>
      rw [hset] at hrun
      exact ih s1 s' hrun (setItem_inv s tag data s1 hset hinv)

theorem runSetItems_const :
    ∀ (ins : List (List Nat × List Nat)) (s s' : WriterState),
    runSetItems s ins = .ok s' →
    s'.sfntVersion = s.sfntVersion ∧ s'.numTables = s.numTables := by
  intro ins
  induction ins with
  | nil =>
    intro s s' hrun
    rw [runSetItems] at hrun
    rw [← Except.ok.inj hrun]
    exact ⟨rfl, rfl⟩
  | cons q rest ih =>
    obtain ⟨tag, data⟩ := q
    intro s s' hrun
    rw [runSetItems] at hrun
    cases hset : setItem s tag data with
    | error err => rw [hset] at hrun; exact Except.noConfusion hrun
    | ok s1 =>
      rw [hset] at hrun
      obtain ⟨-, hs1⟩ := setItem_ok s tag data s1 hset
      obtain ⟨a, b⟩ := ih s1 s' hrun
      subst hs1
      exact ⟨a, b⟩

theorem runSetItems_taglen :
    ∀ (ins : List (List Nat × List Nat)) (s s' : WriterState),
    runSetItems s ins = .ok s' →
    (∀ p ∈ ins, p.1.length = 4) →
    (∀ p ∈ s.tables, p.1.length = 4) →
    ∀ p ∈ s'.tables, p.1.length = 4 := by
  intro ins
  induction ins with
  | nil =>
    intro s s' hrun _ hs
    rw [runSetItems] at hrun
    rw [← Except.ok.inj hrun]
    exact hs
  | cons q rest ih =>
    obtain ⟨tag, data⟩ := q
    intro s s' hrun hins hs
    rw [runSetItems] at hrun
    cases hset : setItem s tag data with
    | error err => rw [hset] at hrun; exact Except.noConfusion hrun
    | ok s1 =>
      rw [hset] at hrun
      obtain ⟨-, hs1⟩ := setItem_ok s tag data s1 hset
      refine ih s1 s' hrun (fun p hp => hins p (List.mem_cons_of_mem _ hp)) ?_
      rw [hs1]
      intro p hp
      simp only [List.mem_append, List.mem_singleton] at hp
      rcases hp with hp | hp
      · exact hs p hp
      · subst hp
        exact hins (tag, data) (List.mem_cons_self _ _)

theorem runSetItems_lookup_persist (t : List Nat) (e : SFNTEntry) :
    ∀ (ins : List (List Nat × List Nat)) (s s' : WriterState),
    runSetItems s ins = .ok s' →
    lookupTable s.tables t = some e →
    lookupTable s'.tables t = some e := by
  intro ins
  induction ins with
  | nil =>
    intro s s' hrun hl
    rw [runSetItems] at hrun
    rw [← Except.ok.inj hrun]
    exact hl
  | cons q rest ih =>
    obtain ⟨tag, data⟩ := q
    intro s s' hrun hl
    rw [runSetItems] at hrun
    cases hset : setItem s tag data with
    | error err => rw [hset] at hrun; exact Except.noConfusion hrun
    | ok s1 =>
      rw [hset] at hrun
      obtain ⟨-, hs1⟩ := setItem_ok s tag data s1 hset
      refine ih s1 s' hrun ?_
      rw [hs1]
      exact lookupTable_append_some _ _ _ _ hl

theorem runSetItems_dup (t d : List Nat) :
    ∀ (ins : List (List Nat × List Nat)) (s s' : WriterState),
    runSetItems s ins = .ok s' →
    s.tables.any (fun p => p.1 = t) = true →
    (t, d) ∈ ins → False := by
  intro ins
  induction ins with
  | nil =>
    intro s s' _ _ hmem
    simp at hmem
  | cons q rest ih =>
    obtain ⟨tag, data⟩ := q
    intro s s' hrun hany hmem
    rw [runSetItems] at hrun
    cases hset : setItem s tag data with
    | error err => rw [hset] at hrun; exact Except.noConfusion hrun
    | ok s1 =>
      rw [hset] at hrun
      obtain ⟨hnone, hs1⟩ := setItem_ok s tag data s1 hset
      rcases List.mem_cons.mp hmem with heq | hmem'
      · have ht : t = tag := congrArg Prod.fst heq
        rw [ht] at hany
        rw [hany] at hnone
        exact Bool.noConfusion hnone
      · refine ih s1 s' hrun ?_ hmem'
        rw [hs1]
        show (s.tables ++ _).any (fun p => p.1 = t) = true
        rw [List.any_append, hany]
        rfl

theorem runSetItems_head (headData : List Nat) :
    ∀ (ins : List (List Nat × List Nat)) (s s' : WriterState),
    runSetItems s ins = .ok s' →
    s.tables.any (fun p => p.1 = headTag) = false →
    (headTag, headData) ∈ ins →
    ∃ e, lookupTable s'.tables headTag = some e ∧
      e.checkSum = calcChecksum (zeroHeadChecksum headData) ∧
      e.length = headData.length := by
  intro ins
  induction ins with
  | nil =>
    intro s s' _ _ hmem
    simp at hmem
  | cons q rest ih =>
    obtain ⟨tag, data⟩ := q
    intro s s' hrun hnone hmem
    rw [runSetItems] at hrun
    cases hset : setItem s tag data with
    | error err => rw [hset] at hrun; exact Except.noConfusion hrun
    | ok s1 =>
      rw [hset] at hrun
      obtain ⟨hany, hs1⟩ := setItem_ok s tag data s1 hset
      by_cases htag : tag = headTag
      · subst htag
        rcases List.mem_cons.mp hmem with heq | hmem'
        · have hd : headData = data := congrArg Prod.snd heq
          subst hd
          refine ⟨_, runSetItems_lookup_persist headTag _ rest s1 s' hrun
            (by rw [hs1]
                exact lookupTable_append_new s.tables _ headTag hany), ?_, ?_⟩
          · show (if headTag = headTag then calcChecksum (zeroHeadChecksum headData)
              else calcChecksum headData) = calcChecksum (zeroHeadChecksum headData)
            rw [if_pos rfl]
          · rfl
        · exfalso
          refine runSetItems_dup headTag headData rest s1 s' hrun ?_ hmem'
          rw [hs1]
          show (s.tables ++ [(headTag, _)]).any (fun p => p.1 = headTag) = true
          rw [List.any_append]
          simp
      · have hmem' : (headTag, headData) ∈ rest := by
          rcases List.mem_cons.mp hmem with heq | h
          · exact absurd (congrArg Prod.fst heq).symm htag
          · exact h
        refine ih s1 s' hrun ?_ hmem'
        rw [hs1]
        show (s.tables ++ [(tag, _)]).any (fun p => p.1 = headTag) = false
        rw [List.any_append, hnone]
        simp [htag]

/-- C2: checkSumAdjustment protocol.  When an `SFNTWriter` run (a
sequence of `__setitem__` calls including one for `head`) is closed,
the `head` table's recorded checkSum was computed over the head data
with its 4-byte checkSumAdjustment field (bytes 8..11) zeroed, and the
4 bytes written at offset 8 of the head payload in the output file are
the big-endian encoding of `(0xB1B0AFBA - S) mod 2^32`, where `S` is
the sum modulo `2^32` of all per-table checkSums plus the checksum of
the encoded SFNT directory (`calcMasterChecksum`). -/
theorem checkSumAdjustment_protocol
    (numTables : Nat) (sfntVersion : List Nat)
    (inserts : List (List Nat × List Nat)) (s : WriterState)
    (headData : List Nat) (file : List Nat)
    (hver : sfntVersion.length = 4)
    (htags : ∀ p ∈ inserts, p.1.length = 4)
    (hmem : (headTag, headData) ∈ inserts)
    (hheadlen : 12 ≤ headData.length)
    (hrun : runSetItems (initWriter numTables sfntVersion) inserts = .ok s)
    (hclose : close s = .ok file) :
    ∃ e, lookupTable s.tables headTag = some e ∧
      e.checkSum = calcChecksum (zeroHeadChecksum headData) ∧
      (file.drop (e.offset + 8)).take 4 =
        toBE32 (calcMasterChecksum s (closeDirectory s)) := by
  obtain ⟨e, hlook, hcs, hlen⟩ :=
    runSetItems_head headData inserts _ s hrun rfl hmem
  have hinv : Inv s :=
    runSetItems_inv inserts _ s hrun (initWriter_inv numTables sfntVersion)
  obtain ⟨hfl, hdir, hent⟩ := hinv
  have hpair : (headTag, e) ∈ s.tables := lookupTable_mem _ _ _ hlook
  obtain ⟨hetag, heoff, heend⟩ := hent _ hpair
  have heoff' : 12 + s.numTables * 16 ≤ e.offset := heoff
  have heend' : e.offset + e.length ≤ s.nextTableOffset := heend
  have hconst := runSetItems_const inserts _ s hrun
  have hsv : s.sfntVersion = sfntVersion := by rw [hconst.1]; rfl
  have htl : ∀ p ∈ s.tables, p.1.length = 4 :=
    runSetItems_taglen inserts _ s hrun htags (by intro p hp; simp [initWriter] at hp)
  have hcnt : s.tables.length = s.numTables := by
    by_cases h : s.tables.length = s.numTables
    · exact h
    · exfalso
      simp only [close] at hclose
      rw [if_pos h] at hclose
      exact Except.noConfusion hclose
  have hdlen : (closeDirectory s).length = 12 + s.tables.length * 16 :=
    closeDirectory_length s (by rw [hsv]; exact hver)
      (fun p hp => by rw [(hent p hp).1]; exact htl p hp)
  have hseen : (sortByTag s.tables).any (fun p => p.1 = headTag) = true := by
    rw [List.any_eq_true]
    exact ⟨(headTag, e), (mem_sortByTag _ _).mpr hpair, by simp⟩
  have hcompute : close s = .ok (writeAt (writeAt s.file (e.offset + 8)
      (toBE32 (calcMasterChecksum s (closeDirectory s)))) 0 (closeDirectory s)) := by
    simp only [close]
    rw [if_neg (by omega), if_pos hseen, if_neg (by omega), hlook]
  have hfile : file = writeAt (writeAt s.file (e.offset + 8)
      (toBE32 (calcMasterChecksum s (closeDirectory s)))) 0 (closeDirectory s) :=
    Except.ok.inj (hclose.symm.trans hcompute)
  refine ⟨e, hlook, hcs, ?_⟩
  rw [hfile]
  rw [drop_writeAt_zero _ _ _ (by rw [hdlen]; omega)]
  rw [← toBE32_length (calcMasterChecksum s (closeDirectory s))]
  exact writeAt_slice s.file (e.offset + 8) _ (by omega)

/-- Witness for the checkSumAdjustment protocol at a concrete run: a
single `head` table of 16 zero bytes. -/
theorem checkSumAdjustment_protocol_witness :
    ∃ s, runSetItems (initWriter 1 [0, 1, 0, 0]) [(headTag, List.replicate 16 0)] =
        .ok s ∧
    ∃ file, close s = .ok file ∧
    ∃ e, lookupTable s.tables headTag = some e ∧
      e.checkSum = calcChecksum (zeroHeadChecksum (List.replicate 16 0)) ∧
      (file.drop (e.offset + 8)).take 4 =
        toBE32 (calcMasterChecksum s (closeDirectory s)) := by
  refine ⟨_, rfl, _, rfl, ?_⟩
  exact checkSumAdjustment_protocol 1 [0, 1, 0, 0]
    [(headTag, List.replicate 16 0)] _ (List.replicate 16 0) _ rfl
    (by intro p hp; simp only [List.mem_singleton] at hp; rw [hp]; rfl)
    (List.mem_singleton.mpr rfl) (by decide) rfl rfl
